import Mathlib

/-!
Verification of the usage & content caching subsystem of `server/index.js`
(tiny-tales backend).

The development shallowly embeds the relevant JavaScript functions:
text is modelled as `List Char`, JS `Map` (insertion-ordered) as an
association list, the Supabase tables as explicit in-memory structures, and
the asynchronous bank builder as a small-step machine whose steps are the
atomic blocks between `await` points.  External collaborators (the OpenAI
generation calls, `crypto.randomUUID`) are modelled as oracles passed in as
parameters.
-/

namespace TinyTales

/-! ## Configuration constants (CONFIG object, src/index.js lines 19-68) -/

def CONFIG_BANK_DAILY_SIZE : Nat := 100
def CONFIG_BANK_LEARN_BATCH_SIZE : Nat := 25
def CONFIG_BANK_LEARN_MIN_ACCEPT : Nat := 30
def CONFIG_RELAX_1_DELTA_MIN_WORDS : Nat := 2
def CONFIG_RELAX_1_DELTA_MAX_WORDS : Nat := 4
def CONFIG_RELAX_2_DELTA_MIN_WORDS : Nat := 3
def CONFIG_RELAX_2_DELTA_MAX_WORDS : Nat := 8
def CONFIG_SUBJECT_CACHE_MAX : Nat := 2000

/-! ## Characters and trimming

JS `\s` covers Unicode whitespace; the characters below are the ones that
can occur in this system's data (ASCII whitespace, NBSP, BOM).  JS
`String.prototype.trim` removes such characters from both ends. -/

def isJsWs (c : Char) : Bool :=
  c.val = 32 || c.val = 9 || c.val = 10 || c.val = 13 || c.val = 11 ||
  c.val = 12 || c.val = 160 || c.val = 65279

/-- The character class `[-•\d.)\s]` of the leading-marker regex in
`stripLinePrefix` (src/index.js line 181). -/
def isMarkerChar (c : Char) : Bool :=
  c = '-' || c = '•' || (48 ≤ c.val && c.val ≤ 57) || c = '.' || c = ')' || isJsWs c

abbrev Line := List Char

/-- JS `String.prototype.trim`. -/
def jsTrim (l : Line) : Line :=
  (l.dropWhile isJsWs).rdropWhile isJsWs

/-- `stripLinePrefix` (src/index.js lines 181-183): remove the leading run of
marker characters (regex `^[-•\d.)\s]+`), then trim. -/
def stripLineMarks (t : Line) : Line :=
  jsTrim (t.dropWhile isMarkerChar)

/-! ## Word counting

`wordCount` (src/index.js lines 185-189) trims, splits on `\s+` and counts
the non-empty pieces; equivalently it counts the maximal runs of
non-whitespace characters.  `wcAux inWord l` counts the runs of `l` given
whether a run is currently open. -/

def wcAux : Bool → Line → Nat
  | _, [] => 0
  | inw, c :: r =>
    if isJsWs c then wcAux false r
    else (if inw then 0 else 1) + wcAux true r

def wordCount (l : Line) : Nat := wcAux false l

/-! ## Splitting text into lines -/

/-- JS `String.prototype.split` with a single-character separator
(`text.split("\n")`, src/index.js line 193). -/
def splitOnChar (sep : Char) : Line → List Line
  | [] => [[]]
  | c :: r =>
    match splitOnChar sep r with
    | [] => [[]]
    | h :: t => if c = sep then [] :: h :: t else (c :: h) :: t

/-! ## normalizeThoughtLines / getRelaxedRanges / filterWithAutoRelax
(src/index.js lines 191-245) -/

/-- The range-independent part of `normalizeThoughtLines`: split on newlines,
strip leading markers and whitespace, drop empty lines
(`.split("\n").map(stripLinePrefix).filter(Boolean)`). -/
def baseLines (text : Line) : List Line :=
  ((splitOnChar '\n' text).map stripLineMarks).filter (fun t => !t.isEmpty)

/-- `normalizeThoughtLines` (src/index.js lines 191-200): split on newlines,
strip leading markers and whitespace, drop empty lines, keep the lines whose
word count lies in `[minWords, maxWords]`. -/
def normalizeThoughtLines (text : Line) (minWords maxWords : Nat) : List Line :=
  (baseLines text).filter
    (fun t => decide (minWords ≤ wordCount t) && decide (wordCount t ≤ maxWords))

structure WordRange where
  minWords : Nat
  maxWords : Nat
deriving DecidableEq

/-- `getRelaxedRanges` (src/index.js lines 210-220).  JS computes
`Math.max(1, minWords - δ)`; since the result is clamped at 1 ≥ 0,
truncated `Nat` subtraction agrees with JS integer subtraction here. -/
def getRelaxedRanges (minWords maxWords : Nat) : WordRange × WordRange :=
  (⟨max 1 (minWords - CONFIG_RELAX_1_DELTA_MIN_WORDS),
    max minWords (maxWords + CONFIG_RELAX_1_DELTA_MAX_WORDS)⟩,
   ⟨max 1 (minWords - CONFIG_RELAX_2_DELTA_MIN_WORDS),
    max minWords (maxWords + CONFIG_RELAX_2_DELTA_MAX_WORDS)⟩)

inductive RelaxMode where
  | strict
  | relax1
  | relax2
  | strictEmpty
deriving DecidableEq

/-- `filterWithAutoRelax` (src/index.js lines 222-245).  The acceptance
threshold is the literal `8`; the `relax2` pass is accepted whenever it is
non-empty; otherwise the (necessarily empty) strict result is returned with
the distinguishable mode `"strict-empty"`. -/
def filterWithAutoRelax (text : Line) (minWords maxWords : Nat) :
    List Line × RelaxMode :=
  let lines := normalizeThoughtLines text minWords maxWords
  if 8 ≤ lines.length then (lines, .strict)
  else
    let rs := getRelaxedRanges minWords maxWords
    let relaxed1 := normalizeThoughtLines text rs.1.minWords rs.1.maxWords
    if 8 ≤ relaxed1.length then (relaxed1, .relax1)
    else
      let relaxed2 := normalizeThoughtLines text rs.2.minWords rs.2.maxWords
      if !relaxed2.isEmpty then (relaxed2, .relax2)
      else (lines, .strictEmpty)

/-- The lines the level-1 relaxed pass produces. -/
def relax1Lines (text : Line) (minWords maxWords : Nat) : List Line :=
  normalizeThoughtLines text (getRelaxedRanges minWords maxWords).1.minWords
    (getRelaxedRanges minWords maxWords).1.maxWords

/-- The lines the level-2 relaxed pass produces. -/
def relax2Lines (text : Line) (minWords maxWords : Nat) : List Line :=
  normalizeThoughtLines text (getRelaxedRanges minWords maxWords).2.minWords
    (getRelaxedRanges minWords maxWords).2.maxWords

/-! ## Lemmas about the filter pipeline -/

theorem filter_length_mono {α : Type} (l : List α) (p q : α → Bool)
    (h : ∀ x ∈ l, p x = true → q x = true) :
    (l.filter p).length ≤ (l.filter q).length := by
  induction l with
  | nil => simp
  | cons a r ih =>
    have ht : ∀ x ∈ r, p x = true → q x = true := fun x hx => h x (List.mem_cons_of_mem a hx)
    by_cases hp : p a = true
    · have hq := h a (List.mem_cons_self a r) hp
      simp [List.filter_cons, hp, hq]
      exact ih ht
    · have hp' : p a = false := by simpa using hp
      simp only [List.filter_cons, hp']
      rcases hq : q a with _ | _
      · simpa using ih ht
      · simp only [cond_true, List.length_cons]
        exact Nat.le_succ_of_le (ih ht)

theorem head?_dropWhile_false {p : Char → Bool} {l : Line} {a : Char}
    (h : (l.dropWhile p).head? = some a) : p a = false := by
  induction l with
  | nil => simp [List.dropWhile] at h
  | cons c r ih =>
    rcases hp : p c with _ | _
    · rw [List.dropWhile_cons, hp] at h
      simp only [Bool.false_eq_true, if_false, List.head?_cons, Option.some.injEq] at h
      rw [← h]
      exact hp
    · rw [List.dropWhile_cons, hp] at h
      exact ih (by simpa using h)

theorem head?_stripLineMarks (y : Line) {a : Char}
    (h : (stripLineMarks y).head? = some a) : isMarkerChar a = false := by
  have hmono : ∀ c, isJsWs c = true → isMarkerChar c = true := by
    intro c hc
    simp [isMarkerChar, hc]
  have hdw : (y.dropWhile isMarkerChar).dropWhile isJsWs = y.dropWhile isMarkerChar := by
    rcases hd : y.dropWhile isMarkerChar with _ | ⟨c, r⟩
    · simp
    · have hc : isMarkerChar c = false :=
        head?_dropWhile_false (p := isMarkerChar) (l := y) (by rw [hd]; simp)
      have hc' : isJsWs c = false := by
        rcases hws : isJsWs c with _ | _
        · rfl
        · exact absurd (hmono c hws) (by simp [hc])
      simp [List.dropWhile_cons, hc']
  have hpre : stripLineMarks y <+: y.dropWhile isMarkerChar := by
    have hstrip : stripLineMarks y = (y.dropWhile isMarkerChar).rdropWhile isJsWs := by
      simp [stripLineMarks, jsTrim, hdw]
    rw [hstrip]
    exact List.rdropWhile_prefix _ _
  obtain ⟨t, ht⟩ := hpre
  apply head?_dropWhile_false (p := isMarkerChar) (l := y)
  rw [← ht]
  rcases hs : stripLineMarks y with _ | ⟨b, r⟩
  · rw [hs] at h
    simp at h
  · rw [hs] at h
    simp only [List.head?_cons, Option.some.injEq] at h
    simp [← h]

theorem getLast_stripLineMarks (y : Line) (h : stripLineMarks y ≠ []) :
    isJsWs ((stripLineMarks y).getLast h) = false := by
  have h2 : List.rdropWhile isJsWs ((y.dropWhile isMarkerChar).dropWhile isJsWs) ≠ [] := by
    simpa [stripLineMarks, jsTrim] using h
  have := List.rdropWhile_last_not isJsWs ((y.dropWhile isMarkerChar).dropWhile isJsWs) h2
  simpa [stripLineMarks, jsTrim] using this

theorem getLast?_stripLineMarks (y : Line) {a : Char}
    (h : (stripLineMarks y).getLast? = some a) : isJsWs a = false := by
  have hne : stripLineMarks y ≠ [] := by
    intro h0
    rw [h0] at h
    simp at h
  have ha : a = (stripLineMarks y).getLast hne := by
    rw [List.getLast?_eq_getLast _ hne] at h
    exact (Option.some_injective _ h).symm
  rw [ha]
  exact getLast_stripLineMarks y hne

theorem one_le_wordCount_of_mem {c : Char} {l : Line} (hc : c ∈ l)
    (hws : isJsWs c = false) : 1 ≤ wordCount l := by
  unfold wordCount
  induction l with
  | nil => cases hc
  | cons a r ih =>
    rcases List.mem_cons.1 hc with rfl | hmem
    · simp [wcAux, hws]
    · rcases ha : isJsWs a with _ | _
      · simp [wcAux, ha]
      · simpa [wcAux, ha] using ih hmem

theorem mem_baseLines {text x : Line} (hx : x ∈ baseLines text) :
    (∃ y ∈ splitOnChar '\n' text, stripLineMarks y = x) ∧ x ≠ [] := by
  unfold baseLines at hx
  have h1 := List.mem_filter.1 hx
  have hne : x ≠ [] := by
    rcases h1 with ⟨_, h2⟩
    intro hx0
    simp [hx0] at h2
  obtain ⟨y, hy, hyx⟩ := List.mem_map.1 h1.1
  exact ⟨⟨y, hy, hyx⟩, hne⟩

theorem one_le_wordCount_of_mem_baseLines {text x : Line} (hx : x ∈ baseLines text) :
    1 ≤ wordCount x := by
  obtain ⟨⟨y, _, hyx⟩, hne⟩ := mem_baseLines hx
  subst hyx
  exact one_le_wordCount_of_mem (List.getLast_mem hne) (getLast_stripLineMarks y hne)

theorem mem_normalizeThoughtLines {text x : Line} {a b : Nat} :
    x ∈ normalizeThoughtLines text a b ↔
      x ∈ baseLines text ∧ a ≤ wordCount x ∧ wordCount x ≤ b := by
  unfold normalizeThoughtLines
  simp [List.mem_filter, and_assoc]

/-- Growing the word-count window (relative to any window reachable by the
relax deltas) can only add lines, for lines that have at least one word. -/
theorem normalize_length_mono (text : Line) (a b a' b' : Nat)
    (hlo : ∀ w, 1 ≤ w → a ≤ w → a' ≤ w) (hhi : b ≤ b') :
    (normalizeThoughtLines text a b).length ≤ (normalizeThoughtLines text a' b').length := by
  unfold normalizeThoughtLines
  apply filter_length_mono
  intro x hx hp
  have hw := one_le_wordCount_of_mem_baseLines hx
  simp only [Bool.and_eq_true, decide_eq_true_eq] at hp ⊢
  exact ⟨hlo _ hw hp.1, le_trans hp.2 hhi⟩

theorem strict_le_relax2 (text : Line) (minW maxW : Nat) :
    (normalizeThoughtLines text minW maxW).length ≤ (relax2Lines text minW maxW).length := by
  unfold relax2Lines getRelaxedRanges
  simp only [CONFIG_RELAX_2_DELTA_MIN_WORDS, CONFIG_RELAX_2_DELTA_MAX_WORDS]
  apply normalize_length_mono
  · intro w hw hmin
    omega
  · omega

theorem relax1_le_relax2 (text : Line) (minW maxW : Nat) :
    (relax1Lines text minW maxW).length ≤ (relax2Lines text minW maxW).length := by
  unfold relax1Lines relax2Lines getRelaxedRanges
  simp only [CONFIG_RELAX_1_DELTA_MIN_WORDS, CONFIG_RELAX_1_DELTA_MAX_WORDS,
    CONFIG_RELAX_2_DELTA_MIN_WORDS, CONFIG_RELAX_2_DELTA_MAX_WORDS]
  apply normalize_length_mono
  · intro w hw hmin
    omega
  · omega

/-- The if-chain of `filterWithAutoRelax`, expressed with the named passes. -/
theorem filterWithAutoRelax_eq (text : Line) (minW maxW : Nat) :
    filterWithAutoRelax text minW maxW =
      if 8 ≤ (normalizeThoughtLines text minW maxW).length then
        (normalizeThoughtLines text minW maxW, .strict)
      else if 8 ≤ (relax1Lines text minW maxW).length then
        (relax1Lines text minW maxW, .relax1)
      else if relax2Lines text minW maxW = [] then
        (normalizeThoughtLines text minW maxW, .strictEmpty)
      else (relax2Lines text minW maxW, .relax2) := by
  unfold filterWithAutoRelax relax1Lines relax2Lines
  by_cases h1 : 8 ≤ (normalizeThoughtLines text minW maxW).length
  · simp [h1]
  · by_cases h2 : 8 ≤ (normalizeThoughtLines text (getRelaxedRanges minW maxW).1.minWords
        (getRelaxedRanges minW maxW).1.maxWords).length
    · simp [h1, h2]
    · by_cases h3 : normalizeThoughtLines text (getRelaxedRanges minW maxW).2.minWords
          (getRelaxedRanges minW maxW).2.maxWords = []
      · simp [h1, h2, h3]
      · simp [h1, h2, h3]

/-- **C4** (auto-relax selection): `filterWithAutoRelax` returns the lines of
the first range in the order strict → relax1 → relax2 whose line count
reaches the acceptance threshold 8; if no range reaches the threshold it
returns the largest non-empty result (the relax2 pass, which is a superset
of the others); if every range yields nothing it returns an empty result
with the distinguishable mode `strictEmpty`; and the returned mode tag
always identifies the range whose lines were returned. -/
theorem c4_auto_relax_selection (text : Line) (minW maxW : Nat) :
    (8 ≤ (normalizeThoughtLines text minW maxW).length →
      filterWithAutoRelax text minW maxW = (normalizeThoughtLines text minW maxW, .strict)) ∧
    ((normalizeThoughtLines text minW maxW).length < 8 →
      8 ≤ (relax1Lines text minW maxW).length →
      filterWithAutoRelax text minW maxW = (relax1Lines text minW maxW, .relax1)) ∧
    ((normalizeThoughtLines text minW maxW).length < 8 →
      (relax1Lines text minW maxW).length < 8 →
      relax2Lines text minW maxW ≠ [] →
      filterWithAutoRelax text minW maxW = (relax2Lines text minW maxW, .relax2) ∧
        (normalizeThoughtLines text minW maxW).length ≤ (relax2Lines text minW maxW).length ∧
        (relax1Lines text minW maxW).length ≤ (relax2Lines text minW maxW).length) ∧
    (relax2Lines text minW maxW = [] →
      filterWithAutoRelax text minW maxW = ([], .strictEmpty)) ∧
    ((filterWithAutoRelax text minW maxW).2 = .strict →
      (filterWithAutoRelax text minW maxW).1 = normalizeThoughtLines text minW maxW) ∧
    ((filterWithAutoRelax text minW maxW).2 = .relax1 →
      (filterWithAutoRelax text minW maxW).1 = relax1Lines text minW maxW) ∧
    ((filterWithAutoRelax text minW maxW).2 = .relax2 →
      (filterWithAutoRelax text minW maxW).1 = relax2Lines text minW maxW) ∧
    ((filterWithAutoRelax text minW maxW).2 = .strictEmpty →
      (filterWithAutoRelax text minW maxW).1 = [] ∧ relax2Lines text minW maxW = []) := by
  have hs2 := strict_le_relax2 text minW maxW
  have h12 := relax1_le_relax2 text minW maxW
  rw [filterWithAutoRelax_eq]
  by_cases h1 : 8 ≤ (normalizeThoughtLines text minW maxW).length
  · rw [if_pos h1]
    refine ⟨fun _ => rfl, by intro h _; exact absurd h1 (by omega),
      by intro h _ _; exact absurd h1 (by omega),
      fun h0 => ?_, fun _ => rfl, fun h => by simp at h, fun h => by simp at h,
      fun h => by simp at h⟩
    exact absurd h0 (by intro h0'; rw [h0'] at hs2; simp only [List.length_nil, Nat.le_zero] at hs2; omega)
  · rw [if_neg h1]
    by_cases h2 : 8 ≤ (relax1Lines text minW maxW).length
    · rw [if_pos h2]
      exact ⟨fun h => absurd h h1, fun _ _ => rfl,
        by intro _ h _; exact absurd h2 (by omega),
        fun h0 => absurd h0 (by intro h0'; rw [h0'] at h12; simp only [List.length_nil, Nat.le_zero] at h12; omega),
        fun h => by simp at h, fun _ => rfl, fun h => by simp at h, fun h => by simp at h⟩
    · rw [if_neg h2]
      by_cases h3 : relax2Lines text minW maxW = []
      · rw [if_pos h3]
        have hsnil : normalizeThoughtLines text minW maxW = [] := by
          rw [h3] at hs2
          simpa using hs2
        exact ⟨fun h => absurd h h1, fun _ h => absurd h h2, fun _ _ h => absurd h3 h,
          fun _ => by rw [hsnil], fun h => by simp at h, fun h => by simp at h,
          fun h => by simp at h, fun _ => ⟨hsnil, h3⟩⟩
      · rw [if_neg h3]
        exact ⟨fun h => absurd h h1, fun _ h => absurd h h2,
          fun _ _ _ => ⟨rfl, hs2, h12⟩, fun h0 => absurd h0 h3,
          fun h => by simp at h, fun h => by simp at h, fun _ => rfl, fun h => by simp at h⟩

set_option maxRecDepth 4000 in
/-- A concrete run: with range [5,15] and eight well-formed lines the strict
pass is returned with mode `strict`. -/
theorem c4_auto_relax_selection_witness :
    8 ≤ (normalizeThoughtLines
        "one two three four five\none two three four five\none two three four five\none two three four five\none two three four five\none two three four five\none two three four five\none two three four five".data
        5 15).length ∧
    filterWithAutoRelax
        "one two three four five\none two three four five\none two three four five\none two three four five\none two three four five\none two three four five\none two three four five\none two three four five".data
        5 15 =
      (normalizeThoughtLines
        "one two three four five\none two three four five\none two three four five\none two three four five\none two three four five\none two three four five\none two three four five\none two three four five".data
        5 15, .strict) := by
  refine ⟨by decide, ?_⟩
  exact (c4_auto_relax_selection _ 5 15).1 (by decide)

theorem baseLines_facts {text l : Line} (h : l ∈ baseLines text) :
    (∃ y ∈ splitOnChar '\n' text, stripLineMarks y = l) ∧ l ≠ [] ∧
      (∀ c, l.head? = some c → isMarkerChar c = false) ∧
      (∀ c, l.getLast? = some c → isJsWs c = false) ∧ 1 ≤ wordCount l := by
  have hw := one_le_wordCount_of_mem_baseLines h
  obtain ⟨⟨y, hy, hyl⟩, hne⟩ := mem_baseLines h
  subst hyl
  exact ⟨⟨y, hy, rfl⟩, hne, fun c hc => head?_stripLineMarks y hc,
    fun c hc => getLast?_stripLineMarks y hc, hw⟩

/-- **C5** (filter line bounds): every line returned by `filterWithAutoRelax`
is one of the stripped input lines (dropped, never truncated), is non-empty,
starts with no marker/whitespace character and ends with no whitespace
character, has word count inside the range actually applied (identified by
the mode tag) and never outside the widest relaxed range, and the relaxed
ranges clamp the lower bound at no less than 1 and the upper bound at no
less than the original minimum. -/
theorem c5_filter_line_bounds (text : Line) (minW maxW : Nat) (l : Line)
    (hl : l ∈ (filterWithAutoRelax text minW maxW).1) :
    (∃ y ∈ splitOnChar '\n' text, stripLineMarks y = l) ∧
    l ≠ [] ∧
    (∀ c, l.head? = some c → isMarkerChar c = false) ∧
    (∀ c, l.getLast? = some c → isJsWs c = false) ∧
    ((filterWithAutoRelax text minW maxW).2 = .strict →
      minW ≤ wordCount l ∧ wordCount l ≤ maxW) ∧
    ((filterWithAutoRelax text minW maxW).2 = .relax1 →
      (getRelaxedRanges minW maxW).1.minWords ≤ wordCount l ∧
        wordCount l ≤ (getRelaxedRanges minW maxW).1.maxWords) ∧
    ((filterWithAutoRelax text minW maxW).2 = .relax2 →
      (getRelaxedRanges minW maxW).2.minWords ≤ wordCount l ∧
        wordCount l ≤ (getRelaxedRanges minW maxW).2.maxWords) ∧
    (max 1 (minW - 3) ≤ wordCount l ∧ wordCount l ≤ max minW (maxW + 8)) ∧
    (1 ≤ (getRelaxedRanges minW maxW).1.minWords ∧
      1 ≤ (getRelaxedRanges minW maxW).2.minWords ∧
      minW ≤ (getRelaxedRanges minW maxW).1.maxWords ∧
      minW ≤ (getRelaxedRanges minW maxW).2.maxWords) := by
  have hclamp : 1 ≤ (getRelaxedRanges minW maxW).1.minWords ∧
      1 ≤ (getRelaxedRanges minW maxW).2.minWords ∧
      minW ≤ (getRelaxedRanges minW maxW).1.maxWords ∧
      minW ≤ (getRelaxedRanges minW maxW).2.maxWords := by
    unfold getRelaxedRanges
    refine ⟨?_, ?_, ?_, ?_⟩ <;> simp
  rw [filterWithAutoRelax_eq] at hl ⊢
  by_cases h1 : 8 ≤ (normalizeThoughtLines text minW maxW).length
  · rw [if_pos h1] at hl ⊢
    obtain ⟨hbase, hlo, hhi⟩ := mem_normalizeThoughtLines.1 hl
    obtain ⟨hy, hne, hhead, hlast, hw⟩ := baseLines_facts hbase
    refine ⟨hy, hne, hhead, hlast, fun _ => ⟨hlo, hhi⟩, fun hm => by simp at hm,
      fun hm => by simp at hm, ?_, hclamp⟩
    constructor <;> omega
  · rw [if_neg h1] at hl ⊢
    by_cases h2 : 8 ≤ (relax1Lines text minW maxW).length
    · rw [if_pos h2] at hl ⊢
      rw [relax1Lines] at hl
      obtain ⟨hbase, hlo, hhi⟩ := mem_normalizeThoughtLines.1 hl
      obtain ⟨hy, hne, hhead, hlast, hw⟩ := baseLines_facts hbase
      refine ⟨hy, hne, hhead, hlast, fun hm => by simp at hm, fun _ => ⟨hlo, hhi⟩,
        fun hm => by simp at hm, ?_, hclamp⟩
      simp only [getRelaxedRanges, CONFIG_RELAX_1_DELTA_MIN_WORDS,
        CONFIG_RELAX_1_DELTA_MAX_WORDS] at hlo hhi
      constructor <;> omega
    · rw [if_neg h2] at hl ⊢
      by_cases h3 : relax2Lines text minW maxW = []
      · rw [if_pos h3] at hl ⊢
        have hs2 := strict_le_relax2 text minW maxW
        rw [h3] at hs2
        have hsnil : normalizeThoughtLines text minW maxW = [] := by
          simpa using hs2
        rw [hsnil] at hl
        cases hl
      · rw [if_neg h3] at hl ⊢
        rw [relax2Lines] at hl
        obtain ⟨hbase, hlo, hhi⟩ := mem_normalizeThoughtLines.1 hl
        obtain ⟨hy, hne, hhead, hlast, hw⟩ := baseLines_facts hbase
        refine ⟨hy, hne, hhead, hlast, fun hm => by simp at hm, fun hm => by simp at hm,
          fun _ => ⟨hlo, hhi⟩, ?_, hclamp⟩
        simp only [getRelaxedRanges, CONFIG_RELAX_2_DELTA_MIN_WORDS,
          CONFIG_RELAX_2_DELTA_MAX_WORDS] at hlo hhi
        constructor <;> omega

set_option maxRecDepth 4000 in
/-- A concrete run of C5: the single 5-word line of a two-line input with
range [5,15] (mode relax2, since fewer than 8 lines survive any pass). -/
theorem c5_filter_line_bounds_witness :
    "hello there my good friend".data ∈
      (filterWithAutoRelax "hello there my good friend\nhi".data 5 15).1 ∧
    "hello there my good friend".data ≠ [] ∧
    (max 1 (5 - 3) ≤ wordCount "hello there my good friend".data ∧
      wordCount "hello there my good friend".data ≤ max 5 (15 + 8)) := by
  refine ⟨by decide, by decide, ?_⟩
  exact (c5_filter_line_bounds "hello there my good friend\nhi".data 5 15
    "hello there my good friend".data (by decide)).2.2.2.2.2.2.2.1

/-! ## ensureSingleEndingEmoji (src/index.js lines 202-208)

The regex `/([\p{Emoji_Presentation}\p{Extended_Pictographic}])$/u` tests
whether the final code point belongs to a fixed Unicode character class; the
embedding abstracts that class as an oracle `emoji : Char → Bool`.  The only
facts used about it are that the appended default 🙂 (U+1F642) is in the
class and the space character is not, both true of Unicode. -/

def defaultEmoji : Char := Char.ofNat 0x1F642

def ensureSingleEndingEmoji (emoji : Char → Bool) (text : Line) : Line :=
  let t := jsTrim text
  match t.getLast? with
  | none => t
  | some c => if emoji c then t else t ++ [' ', defaultEmoji]

/-- "Ends in exactly one emoji": the final character is in the class and the
character before it (if any) is not. -/
def endsInExactlyOneEmoji (emoji : Char → Bool) (l : Line) : Bool :=
  match l.getLast? with
  | none => false
  | some c =>
    emoji c &&
      (match l.dropLast.getLast? with
       | none => true
       | some d => !emoji d)

/-- The emoji class restricted to the only class member this file uses;
U+1F642 has `Emoji_Presentation = Yes`. -/
def emojiSample (c : Char) : Bool := c = defaultEmoji

/-! ### Trimming lemmas -/

theorem dropWhile_eq_self_of_head? {p : Char → Bool} {l : Line} {a : Char}
    (h : l.head? = some a) (ha : p a = false) : l.dropWhile p = l := by
  cases l with
  | nil => rfl
  | cons c r =>
    simp only [List.head?_cons, Option.some.injEq] at h
    rw [← h] at ha
    simp [List.dropWhile_cons, ha]

theorem head?_rdropWhile {p : Char → Bool} {m : Line}
    (h : m.rdropWhile p ≠ []) : (m.rdropWhile p).head? = m.head? := by
  obtain ⟨t, ht⟩ := List.rdropWhile_prefix p m
  cases hr : m.rdropWhile p with
  | nil => exact absurd hr h
  | cons a r =>
    rw [hr] at ht
    rw [← ht]
    simp

theorem jsTrim_head?_not_ws {l : Line} {a : Char} (h : (jsTrim l).head? = some a) :
    isJsWs a = false := by
  have hne : jsTrim l ≠ [] := by
    intro h0
    rw [h0] at h
    simp at h
  unfold jsTrim at h hne
  rw [head?_rdropWhile hne] at h
  exact head?_dropWhile_false h

theorem jsTrim_idem (l : Line) : jsTrim (jsTrim l) = jsTrim l := by
  cases hr : jsTrim l with
  | nil => simp [jsTrim]
  | cons a r =>
    have hh : (jsTrim l).head? = some a := by rw [hr]; rfl
    have ha : isJsWs a = false := jsTrim_head?_not_ws hh
    unfold jsTrim
    rw [← hr]
    rw [dropWhile_eq_self_of_head? hh ha]
    unfold jsTrim
    exact List.rdropWhile_idempotent _ _

theorem jsTrim_eq_self_of_ends {l : Line} {a b : Char}
    (hl : jsTrim l = l) (hne : l ≠ []) (hb : isJsWs b = false) :
    jsTrim (l ++ [a, b]) = l ++ [a, b] := by
  have hh : ∃ c, l.head? = some c := by
    cases l with
    | nil => exact absurd rfl hne
    | cons x r => exact ⟨x, rfl⟩
  obtain ⟨c, hc⟩ := hh
  have hcw : isJsWs c = false := jsTrim_head?_not_ws (by rw [hl]; exact hc)
  have happ : (l ++ [a, b]).head? = some c := by
    cases l with
    | nil => exact absurd rfl hne
    | cons x r => simpa using hc
  unfold jsTrim
  rw [dropWhile_eq_self_of_head? happ hcw]
  have : l ++ [a, b] = (l ++ [a]) ++ [b] := by simp
  rw [this]
  exact List.rdropWhile_concat_neg _ _ _ (by simp [hb])

/-! ### C9 -/

/-- **C9, counterexample**: `ensureSingleEndingEmoji` does not make every
output end in exactly one emoji: an input already ending in two emojis is
returned unchanged (still ending in two), and the empty input is returned
with no emoji at all. -/
theorem c9_counterexample :
    ensureSingleEndingEmoji emojiSample [defaultEmoji, defaultEmoji] =
      [defaultEmoji, defaultEmoji] ∧
    endsInExactlyOneEmoji emojiSample
      (ensureSingleEndingEmoji emojiSample [defaultEmoji, defaultEmoji]) = false ∧
    ensureSingleEndingEmoji emojiSample [] = [] ∧
    endsInExactlyOneEmoji emojiSample (ensureSingleEndingEmoji emojiSample []) = false := by
  refine ⟨by decide, by decide, by decide, by decide⟩

/-- **C9, amended**: for any emoji class containing 🙂 but not the space
character, `ensureSingleEndingEmoji` appends the neutral default exactly
when no trailing emoji is present (and then the output ends in exactly one
emoji), appends nothing when a trailing emoji is already there, makes the
output of any input with non-empty trimmed form end in an emoji, and is
idempotent — so it never appends twice.  (It does not guarantee "exactly
one" when the input already ends in several emojis, see the
counterexample.) -/
theorem ensureSingleEndingEmoji_eq (emoji : Char → Bool) (text : Line) :
    ensureSingleEndingEmoji emoji text =
      match (jsTrim text).getLast? with
      | none => jsTrim text
      | some c => if emoji c then jsTrim text else jsTrim text ++ [' ', defaultEmoji] := rfl

theorem c9_emoji_normalization (emoji : Char → Bool) (t : Line)
    (hd : emoji defaultEmoji = true) (hsp : emoji ' ' = false) :
    (∀ c, (jsTrim t).getLast? = some c → emoji c = true →
      ensureSingleEndingEmoji emoji t = jsTrim t) ∧
    (∀ c, (jsTrim t).getLast? = some c → emoji c = false →
      ensureSingleEndingEmoji emoji t = jsTrim t ++ [' ', defaultEmoji] ∧
        endsInExactlyOneEmoji emoji (ensureSingleEndingEmoji emoji t) = true) ∧
    (jsTrim t ≠ [] →
      ∃ c, (ensureSingleEndingEmoji emoji t).getLast? = some c ∧ emoji c = true) ∧
    ensureSingleEndingEmoji emoji (ensureSingleEndingEmoji emoji t) =
      ensureSingleEndingEmoji emoji t := by
  cases hg : (jsTrim t).getLast? with
  | none =>
    have ht0 : jsTrim t = [] := by
      cases h : jsTrim t with
      | nil => rfl
      | cons a r =>
        rw [h] at hg
        simp [List.getLast?_concat] at hg
    have hE : ensureSingleEndingEmoji emoji t = jsTrim t := by
      rw [ensureSingleEndingEmoji_eq, hg]
    refine ⟨fun c hc _ => (by cases hc), fun c hc _ => (by cases hc),
      fun h => absurd ht0 h, ?_⟩
    rw [hE, ht0]
    rfl
  | some c =>
    rcases he : emoji c with _ | _
    · have hE : ensureSingleEndingEmoji emoji t = jsTrim t ++ [' ', defaultEmoji] := by
        rw [ensureSingleEndingEmoji_eq, hg]
        simp [he]
      have htne : jsTrim t ≠ [] := by
        intro h0
        rw [h0] at hg
        simp at hg
      have happ : jsTrim (jsTrim t ++ [' ', defaultEmoji]) = jsTrim t ++ [' ', defaultEmoji] :=
        jsTrim_eq_self_of_ends (jsTrim_idem t) htne (by decide)
      have hlast : (jsTrim t ++ [' ', defaultEmoji]).getLast? = some defaultEmoji := by
        have h2 : jsTrim t ++ [' ', defaultEmoji] = (jsTrim t ++ [' ']) ++ [defaultEmoji] := by
          simp
        rw [h2, List.getLast?_concat]
      refine ⟨fun c' hc' he' => ?_, fun c' hc' _ => ⟨hE, ?_⟩, fun _ => ?_, ?_⟩
      · cases hc'
        rw [he'] at he
        cases he
      · rw [hE]
        unfold endsInExactlyOneEmoji
        rw [hlast]
        have hdrop : (jsTrim t ++ [' ', defaultEmoji]).dropLast = jsTrim t ++ [' '] := by
          have h2 : jsTrim t ++ [' ', defaultEmoji] = (jsTrim t ++ [' ']) ++ [defaultEmoji] := by
            simp
          rw [h2, List.dropLast_concat]
        rw [hdrop, List.getLast?_concat]
        simp [hd, hsp]
      · rw [hE]
        exact ⟨defaultEmoji, hlast, hd⟩
      · rw [hE, ensureSingleEndingEmoji_eq]
        rw [happ, hlast]
        simp [hd]
    · have hE : ensureSingleEndingEmoji emoji t = jsTrim t := by
        rw [ensureSingleEndingEmoji_eq, hg]
        simp [he]
      refine ⟨fun _ _ _ => hE, fun c' hc' he' => ?_, fun _ => ?_, ?_⟩
      · cases hc'
        rw [he'] at he
        cases he
      · rw [hE]
        exact ⟨c, hg, he⟩
      · rw [hE, ensureSingleEndingEmoji_eq, jsTrim_idem, hg]
        simp [he, hE]

/-- Concrete instance of the amended C9: a plain word gets the default
appended, and a second application changes nothing. -/
theorem c9_emoji_normalization_witness :
    ensureSingleEndingEmoji emojiSample "hi ".data =
      "hi".data ++ [' ', defaultEmoji] ∧
    ensureSingleEndingEmoji emojiSample (ensureSingleEndingEmoji emojiSample "hi ".data) =
      ensureSingleEndingEmoji emojiSample "hi ".data := by
  have h := c9_emoji_normalization emojiSample "hi ".data (by decide) (by decide)
  refine ⟨?_, h.2.2.2⟩
  have := h.2.1 'i' (by decide) (by decide)
  rw [this.1]
  decide

/-! ## Supabase `thought_banks` table and ensureDailyBank
(src/index.js lines 336-393, 474-488)

The table is modelled as a list of rows keyed by `(label, bank_date)`; the
`bank_date` string keys (`YYYY-MM-DD`, compared lexicographically by the
store's `order by bank_date desc`) are modelled as `Nat` day indices, which
order the same way. -/

structure BankRow where
  label : String
  bankDate : Nat
  thoughts : List Line
deriving DecidableEq

/-- The cleaning applied on read and write: keep strings, trim, drop empties
(`.filter((t) => typeof t === "string").map((t) => t.trim()).filter(Boolean)`). -/
def cleanThoughts (ts : List Line) : List Line :=
  (ts.map jsTrim).filter (fun t => !t.isEmpty)

/-- `sbGetBankByDate` (src/index.js lines 336-353): `maybeSingle` row lookup;
`null` when the row is absent or its `thoughts` array is empty, otherwise
the cleaned thoughts. -/
def sbGetBankByDate (store : List BankRow) (label : String) (date : Nat) :
    Option (List Line) :=
  match store.find? (fun r => decide (r.label = label) && decide (r.bankDate = date)) with
  | none => none
  | some r => if r.thoughts.isEmpty then none else some (cleanThoughts r.thoughts)

/-- The `order by bank_date descending, limit 1` row of `sbGetLatestBank`. -/
def latestRow (store : List BankRow) (label : String) : Option BankRow :=
  (store.filter (fun r => decide (r.label = label))).foldl
    (fun acc r =>
      match acc with
      | none => some r
      | some b => if b.bankDate < r.bankDate then some r else some b)
    none

/-- `sbGetLatestBank` (src/index.js lines 359-377). -/
def sbGetLatestBank (store : List BankRow) (label : String) : Option (List Line) :=
  match latestRow store label with
  | none => none
  | some r => if r.thoughts.isEmpty then none else some (cleanThoughts r.thoughts)

structure EnsureResult where
  thoughts : List Line
  source : String
  buildTriggered : Bool
deriving DecidableEq

/-- The fallback tail of `ensureDailyBank`: today's bank was absent or
empty, so consult the latest bank and fire a background build either way. -/
def ensureFallback (store : List BankRow) (label : String) : EnsureResult :=
  match sbGetLatestBank store label with
  | none => ⟨[], "none", true⟩
  | some l => if l.isEmpty then ⟨[], "none", true⟩ else ⟨l, "latest-fallback", true⟩

/-- `ensureDailyBank` (src/index.js lines 474-488).  The fire-and-forget
`buildBankInBackground(label)` calls are recorded in `buildTriggered`; the
`.catch(() => null)` wrappers mean store errors read as absent banks, so the
store reads are modelled as reliable lookups. -/
def ensureDailyBank (store : List BankRow) (today : Nat) (label : String) :
    EnsureResult :=
  match sbGetBankByDate store label today with
  | none => ensureFallback store label
  | some l => if l.isEmpty then ensureFallback store label else ⟨l, "today", false⟩

/-- **C6** (ensureDailyBank three-way behaviour): if a non-empty bank for
today exists it is returned with source `"today"` and no build is
triggered; otherwise if the latest lookup finds a non-empty bank, a build
is triggered and the stale entry is returned with source
`"latest-fallback"`; otherwise a build is triggered and the empty list is
returned with source `"none"`. -/
theorem c6_ensure_daily_bank (store : List BankRow) (today : Nat) (label : String) :
    (∀ l, sbGetBankByDate store label today = some l → l ≠ [] →
      ensureDailyBank store today label = ⟨l, "today", false⟩) ∧
    ((sbGetBankByDate store label today = none ∨
        sbGetBankByDate store label today = some []) →
      ∀ l, sbGetLatestBank store label = some l → l ≠ [] →
        ensureDailyBank store today label = ⟨l, "latest-fallback", true⟩) ∧
    ((sbGetBankByDate store label today = none ∨
        sbGetBankByDate store label today = some []) →
      (sbGetLatestBank store label = none ∨ sbGetLatestBank store label = some []) →
      ensureDailyBank store today label = ⟨[], "none", true⟩) := by
  refine ⟨?_, ?_, ?_⟩
  · intro l hl hne
    unfold ensureDailyBank
    rw [hl]
    simp [List.isEmpty_iff, hne]
  · intro htoday l hl hne
    have hfb : ensureFallback store label = ⟨l, "latest-fallback", true⟩ := by
      unfold ensureFallback
      rw [hl]
      simp [List.isEmpty_iff, hne]
    unfold ensureDailyBank
    rcases htoday with h | h <;> rw [h] <;> simp [hfb]
  · intro htoday hlatest
    have hfb : ensureFallback store label = ⟨[], "none", true⟩ := by
      unfold ensureFallback
      rcases hlatest with h | h <;> rw [h] <;> simp
    unfold ensureDailyBank
    rcases htoday with h | h <;> (rw [h]; simp [hfb])

/-- Concrete instances of all three branches of C6. -/
theorem c6_ensure_daily_bank_witness :
    ensureDailyBank [⟨"dog", 5, ["hi".data]⟩] 5 "dog" = ⟨["hi".data], "today", false⟩ ∧
    ensureDailyBank [⟨"dog", 4, ["hi".data]⟩] 5 "dog" =
      ⟨["hi".data], "latest-fallback", true⟩ ∧
    ensureDailyBank [] 5 "dog" = ⟨[], "none", true⟩ := by
  refine ⟨?_, ?_, ?_⟩
  · exact (c6_ensure_daily_bank [⟨"dog", 5, ["hi".data]⟩] 5 "dog").1
      ["hi".data] (by decide) (by decide)
  · exact (c6_ensure_daily_bank [⟨"dog", 4, ["hi".data]⟩] 5 "dog").2.1
      (Or.inl (by decide)) ["hi".data] (by decide) (by decide)
  · exact (c6_ensure_daily_bank [] 5 "dog").2.2 (Or.inl (by decide)) (Or.inl (by decide))

/-! ## Subject-only fingerprint cache (src/index.js lines 250-272)

A JS `Map` iterates in insertion order and holds at most one entry per key;
it is modelled as an association list, oldest entry first.  `Map.set` on an
existing key updates the value in place (keeping the entry's position); on
a new key it appends.  `Map.delete` removes the key's entry.  Keys are sha1
hex fingerprints (`subjectCacheKey`), hence never the empty string; the
`if (firstKey)` truthiness test in `subjectCacheSet` is modelled as a
`≠ ""` test. -/

structure SubjectEntry (α : Type) where
  payload : α
  expiresAt : Nat
deriving DecidableEq

def mapGet {α : Type} : List (String × SubjectEntry α) → String → Option (SubjectEntry α)
  | [], _ => none
  | p :: r, k => if p.1 = k then some p.2 else mapGet r k

def mapSet {α : Type} :
    List (String × SubjectEntry α) → String → SubjectEntry α → List (String × SubjectEntry α)
  | [], k, v => [(k, v)]
  | p :: r, k, v => if p.1 = k then (k, v) :: r else p :: mapSet r k v

def mapDelete {α : Type} :
    List (String × SubjectEntry α) → String → List (String × SubjectEntry α)
  | [], _ => []
  | p :: r, k => if p.1 = k then r else p :: mapDelete r k

/-- `subjectCacheGet` (src/index.js lines 256-264): absent keys and expired
entries read as `null`; an expired entry is deleted by the expiring read.
Returns the JS function's return value together with the updated cache. -/
def subjectCacheGet {α : Type} (now : Nat) (m : List (String × SubjectEntry α))
    (k : String) : Option (SubjectEntry α) × List (String × SubjectEntry α) :=
  match mapGet m k with
  | none => (none, m)
  | some v => if v.expiresAt < now then (none, mapDelete m k) else (some v, m)

/-- `subjectCacheSet` (src/index.js lines 266-272): when the cache has
reached `SUBJECT_CACHE_MAX` entries, delete the first (earliest-inserted)
key, then set. -/
def subjectCacheSet {α : Type} (m : List (String × SubjectEntry α)) (k : String)
    (v : SubjectEntry α) : List (String × SubjectEntry α) :=
  let m1 :=
    if CONFIG_SUBJECT_CACHE_MAX ≤ m.length then
      match m.head? with
      | none => m
      | some p => if p.1 = "" then m else mapDelete m p.1
    else m
  mapSet m1 k v

theorem subjectCacheGet_of_mapGet_none {α : Type} {now : Nat}
    {m : List (String × SubjectEntry α)} {k : String} (h : mapGet m k = none) :
    subjectCacheGet now m k = (none, m) := by
  unfold subjectCacheGet
  rw [h]

theorem subjectCacheGet_of_mapGet_some {α : Type} {now : Nat}
    {m : List (String × SubjectEntry α)} {k : String} {v : SubjectEntry α}
    (h : mapGet m k = some v) :
    subjectCacheGet now m k =
      if v.expiresAt < now then (none, mapDelete m k) else (some v, m) := by
  unfold subjectCacheGet
  rw [h]

theorem mapGet_mapSet_self {α : Type} (m : List (String × SubjectEntry α))
    (k : String) (v : SubjectEntry α) : mapGet (mapSet m k v) k = some v := by
  induction m with
  | nil => simp [mapSet, mapGet]
  | cons p r ih =>
    by_cases hp : p.1 = k
    · simp [mapSet, hp, mapGet]
    · simp [mapSet, hp, mapGet, ih]

theorem mapGet_eq_none_iff {α : Type} {m : List (String × SubjectEntry α)}
    {k : String} : mapGet m k = none ↔ ∀ p ∈ m, p.1 ≠ k := by
  induction m with
  | nil => simp [mapGet]
  | cons p r ih =>
    by_cases hp : p.1 = k
    · simp only [mapGet, if_pos hp]
      constructor
      · intro h
        cases h
      · intro h
        exact absurd hp (h p (List.mem_cons_self p r))
    · simp only [mapGet, if_neg hp, List.mem_cons]
      rw [ih]
      constructor
      · intro h q hq
        rcases hq with rfl | hq
        · exact hp
        · exact h q hq
      · intro h q hq
        exact h q (Or.inr hq)

theorem mapGet_mapDelete_self {α : Type} {m : List (String × SubjectEntry α)}
    {k : String} (hnodup : (m.map Prod.fst).Nodup) :
    mapGet (mapDelete m k) k = none := by
  induction m with
  | nil => simp [mapDelete, mapGet]
  | cons p r ih =>
    simp only [List.map_cons, List.nodup_cons] at hnodup
    by_cases hp : p.1 = k
    · simp only [mapDelete, if_pos hp]
      rw [mapGet_eq_none_iff]
      intro q hq hqk
      apply hnodup.1
      have hmem : q.1 ∈ List.map Prod.fst r := List.mem_map_of_mem Prod.fst hq
      rw [hqk] at hmem
      rw [hp]
      exact hmem
    · simp only [mapDelete, if_neg hp, mapGet, if_neg hp]
      exact ih hnodup.2

/-- **C8** (FingerprintCache behaviour): `set` followed immediately by `get`
returns the stored payload; `get` is absent when the key was never set or
when the entry has expired, and an expired entry is purged by that read;
when the cache holds `SUBJECT_CACHE_MAX` entries, `set` evicts exactly one
entry — the earliest-inserted one, never the most recently inserted —
before inserting the new entry. -/
theorem c8_fingerprint_cache {α : Type} (now : Nat)
    (m rest : List (String × SubjectEntry α)) (k k0 : String)
    (v e0 : SubjectEntry α) :
    (now ≤ v.expiresAt → (subjectCacheGet now (subjectCacheSet m k v) k).1 = some v) ∧
    (mapGet m k = none → subjectCacheGet now m k = (none, m)) ∧
    ((m.map Prod.fst).Nodup → ∀ w, mapGet m k = some w → w.expiresAt < now →
      subjectCacheGet now m k = (none, mapDelete m k) ∧
        mapGet (subjectCacheGet now m k).2 k = none) ∧
    (m.length = CONFIG_SUBJECT_CACHE_MAX → m = (k0, e0) :: rest → k0 ≠ "" →
      k ≠ k0 → mapGet m k = none → (m.map Prod.fst).Nodup →
      subjectCacheSet m k v = rest ++ [(k, v)] ∧
        mapGet (subjectCacheSet m k v) k0 = none ∧
        mapGet (subjectCacheSet m k v) k = some v ∧
        (∀ p ∈ rest, p ∈ subjectCacheSet m k v) ∧
        (subjectCacheSet m k v).length = CONFIG_SUBJECT_CACHE_MAX) := by
  refine ⟨?_, ?_, ?_, ?_⟩
  · intro hnow
    have hg : mapGet (subjectCacheSet m k v) k = some v := by
      unfold subjectCacheSet
      exact mapGet_mapSet_self _ k v
    rw [subjectCacheGet_of_mapGet_some hg, if_neg (by omega)]
  · exact fun hnone => subjectCacheGet_of_mapGet_none hnone
  · intro hnodup w hw hexp
    have hG : subjectCacheGet now m k = (none, mapDelete m k) := by
      rw [subjectCacheGet_of_mapGet_some hw, if_pos hexp]
    exact ⟨hG, by rw [hG]; exact mapGet_mapDelete_self hnodup⟩
  · intro hlen hm hk0 hkk0 hknone hnodup
    subst hm
    have hrestk0 : ∀ p ∈ rest, p.1 ≠ k0 := by
      simp only [List.map_cons, List.nodup_cons] at hnodup
      intro p hp hpk
      exact hnodup.1 (hpk ▸ List.mem_map_of_mem Prod.fst hp)
    have hrestk : ∀ p ∈ rest, p.1 ≠ k := by
      intro p hp
      exact mapGet_eq_none_iff.1 hknone p (List.mem_cons_of_mem _ hp)
    have hsetr : ∀ l : List (String × SubjectEntry α), (∀ p ∈ l, p.1 ≠ k) →
        mapSet l k v = l ++ [(k, v)] := by
      intro l
      induction l with
      | nil => intro _; rfl
      | cons q t ih =>
        intro hl
        have hq : q.1 ≠ k := hl q (List.mem_cons_self q t)
        simp only [mapSet, if_neg hq, List.cons_append]
        rw [ih fun p hp => hl p (List.mem_cons_of_mem _ hp)]
    have hset : subjectCacheSet ((k0, e0) :: rest) k v = rest ++ [(k, v)] := by
      unfold subjectCacheSet
      rw [if_pos (by omega)]
      simp only [List.head?_cons]
      rw [if_neg hk0]
      simp only [mapDelete, if_pos rfl]
      exact hsetr rest hrestk
    refine ⟨hset, ?_, ?_, ?_, ?_⟩
    · rw [hset, mapGet_eq_none_iff]
      intro p hp
      rcases List.mem_append.1 hp with h | h
      · exact hrestk0 p h
      · rcases List.mem_singleton.1 h with rfl
        exact fun h2 => hkk0 h2
    · rw [hset]
      have : ∀ l : List (String × SubjectEntry α), (∀ p ∈ l, p.1 ≠ k) →
          mapGet (l ++ [(k, v)]) k = some v := by
        intro l
        induction l with
        | nil => intro _; simp [mapGet]
        | cons q t ih =>
          intro hl
          have hq : q.1 ≠ k := hl q (List.mem_cons_self q t)
          simp only [List.cons_append, mapGet, if_neg hq]
          exact ih fun p hp => hl p (List.mem_cons_of_mem _ hp)
      exact this rest hrestk
    · intro p hp
      rw [hset]
      exact List.mem_append_left _ hp
    · rw [hset]
      simp only [List.length_cons] at hlen
      simp only [List.length_append, List.length_cons, List.length_nil]
      omega

/-! ### Concrete full cache for the C8 witness -/

def aKey (n : Nat) : String := String.mk (List.replicate (n + 1) 'a')

def c8cacheRest : List (String × SubjectEntry Nat) :=
  (List.range 1999).map (fun n => (aKey (n + 1), ⟨0, 10⟩))

def c8cache : List (String × SubjectEntry Nat) := (aKey 0, ⟨0, 10⟩) :: c8cacheRest

theorem aKey_inj : Function.Injective aKey := by
  intro a b h
  have hd : List.replicate (a + 1) 'a' = List.replicate (b + 1) 'a' :=
    congrArg String.data h
  have := congrArg List.length hd
  simpa using this

theorem aKey_ne_b (n : Nat) : aKey n ≠ "b" := by
  intro h
  have hd : List.replicate (n + 1) 'a' = ['b'] := congrArg String.data h
  have hlen := congrArg List.length hd
  simp at hlen
  subst hlen
  exact absurd hd (by decide)

theorem c8cache_keys_nodup : (c8cache.map Prod.fst).Nodup := by
  have hmap : c8cache.map Prod.fst =
      List.map aKey (0 :: (List.range 1999).map (fun n => n + 1)) := by
    simp only [c8cache, c8cacheRest, List.map_cons, List.map_map]
    rfl
  rw [hmap]
  refine List.Nodup.map aKey_inj ?_
  rw [List.nodup_cons]
  constructor
  · intro hmem
    obtain ⟨n, _, hn⟩ := List.mem_map.1 hmem
    omega
  · exact (List.nodup_range 1999).map (fun a b h => by omega)

theorem c8cache_get_b : mapGet c8cache "b" = none := by
  rw [mapGet_eq_none_iff]
  intro p hp
  rcases List.mem_cons.1 hp with rfl | hp2
  · exact aKey_ne_b 0
  · obtain ⟨n, _, rfl⟩ := List.mem_map.1 hp2
    exact aKey_ne_b (n + 1)

theorem c8cache_length : c8cache.length = CONFIG_SUBJECT_CACHE_MAX := by
  simp [c8cache, c8cacheRest, CONFIG_SUBJECT_CACHE_MAX]

/-- Concrete instances of the four conjuncts of C8: a full 2000-entry cache
evicts exactly its earliest-inserted key, the fresh entry and all later
entries survive; plus get-after-set, get-of-absent and expiry purge on a
small cache. -/
theorem c8_fingerprint_cache_witness :
    subjectCacheSet c8cache "b" ⟨7, 99⟩ = c8cacheRest ++ [("b", ⟨7, 99⟩)] ∧
    mapGet (subjectCacheSet c8cache "b" ⟨7, 99⟩) (aKey 0) = none ∧
    mapGet (subjectCacheSet c8cache "b" ⟨7, 99⟩) "b" = some ⟨7, 99⟩ ∧
    (subjectCacheSet c8cache "b" ⟨7, 99⟩).length = CONFIG_SUBJECT_CACHE_MAX ∧
    (subjectCacheGet 99 (subjectCacheSet [] "b" ⟨7, 99⟩) "b").1 = some ⟨7, 99⟩ ∧
    subjectCacheGet 99 ([] : List (String × SubjectEntry Nat)) "b" = (none, []) ∧
    subjectCacheGet 99 [("b", (⟨7, 1⟩ : SubjectEntry Nat))] "b" = (none, []) := by
  have h4 := (c8_fingerprint_cache (α := Nat) 99 c8cache c8cacheRest "b" (aKey 0)
      ⟨7, 99⟩ ⟨0, 10⟩).2.2.2 c8cache_length rfl (by decide) (by decide)
      c8cache_get_b c8cache_keys_nodup
  have h1 := (c8_fingerprint_cache (α := Nat) 99 ([] : List (String × SubjectEntry Nat))
      [] "b" "x" ⟨7, 99⟩ ⟨0, 10⟩).1 (by decide)
  have h2 := (c8_fingerprint_cache (α := Nat) 99 ([] : List (String × SubjectEntry Nat))
      [] "b" "x" ⟨7, 99⟩ ⟨0, 10⟩).2.1 rfl
  have h3 := ((c8_fingerprint_cache (α := Nat) 99 [("b", ⟨7, 1⟩)]
      [] "b" "x" ⟨7, 99⟩ ⟨0, 10⟩).2.2.1 (by simp) ⟨7, 1⟩ (by decide) (by decide)).1
  exact ⟨h4.1, h4.2.1, h4.2.2.1, h4.2.2.2.2, h1, h2, by rw [h3]; rfl⟩

/-! ## RevenueCat event dedupe and webhook grant path
(src/index.js lines 823-844 and 1191-1243)

The `revenuecat_events` table (unique key `event_id`) is modelled as the
list of recorded ids.  The Supabase insert is modelled with a fault oracle:
`fault = some m` makes the insert fail with message `m`; with no fault the
insert conflicts exactly when the id is already recorded, yielding
Postgres's duplicate-key message. -/

def conflictMsg : String := "duplicate key value violates unique constraint"

def listStartsWith : List Char → List Char → Bool
  | _, [] => true
  | [], _ :: _ => false
  | a :: as, b :: bs => a = b && listStartsWith as bs

def containsSeq : List Char → List Char → Bool
  | [], sub => sub.isEmpty
  | c :: rest, sub => listStartsWith (c :: rest) sub || containsSeq rest sub

/-- JS `String.prototype.includes`. -/
def strContains (s sub : String) : Bool := containsSeq s.data sub.data

/-- JS `String.prototype.toLowerCase` (ASCII suffices for these messages). -/
def jsToLower (s : String) : String := String.mk (s.data.map Char.toLower)

/-- Outcome of the unique-key insert: `none` = success. -/
def insertEvent (store : List String) (fault : Option String) (eventId : String) :
    Option String × List String :=
  match fault with
  | some m => (some m, store)
  | none =>
    if eventId ∈ store then (some conflictMsg, store) else (none, store ++ [eventId])

/-- `rcDedupe` (src/index.js lines 823-844): falsy event ids short-circuit to
`true`; a conflict (message mentioning duplicate/unique) returns `false`
without raising; any other storage error propagates. -/
def rcDedupe (store : List String) (fault : Option String) (eventId : Option String) :
    Except String (Bool × List String) :=
  match eventId with
  | none => .ok (true, store)
  | some e =>
    if e = "" then .ok (true, store)
    else
      match insertEvent store fault e with
      | (none, s) => .ok (true, s)
      | (some msg, s) =>
        if strContains (jsToLower msg) "duplicate" || strContains (jsToLower msg) "unique" then
          .ok (false, s)
        else .error msg

inductive WebhookResp where
  | deduped
  | granted
  | serverError
deriving DecidableEq

structure WebhookState where
  events : List String
  grants : List (String × Nat)
deriving DecidableEq

/-- The credit-grant path of `POST /revenuecat/webhook`
(src/index.js lines 1224-1234), reached when the product maps to credits and
an `app_user_id` is present.  `uuid` models the `crypto.randomUUID()` used
when the event carries no id; a propagated dedupe error is turned into a
500 by the route-level catch, and then no grant is issued.  The grant is
appended only after `rcDedupe` reports the event as new. -/
def webhookGrantPath (st : WebhookState) (fault : Option String)
    (eventId : Option String) (uuid appUserId : String) (credits : Nat) :
    WebhookResp × WebhookState :=
  let key :=
    match eventId with
    | none => uuid
    | some e => if e = "" then uuid else e
  match rcDedupe st.events fault (some key) with
  | .error _ => (.serverError, st)
  | .ok (false, s) => (.deduped, ⟨s, st.grants⟩)
  | .ok (true, s) => (.granted, ⟨s, st.grants ++ [(appUserId, credits)]⟩)

theorem conflictMsg_contains_duplicate :
    strContains (jsToLower conflictMsg) "duplicate" = true := by decide

/-- **C3** (dedupe before grant): `rcDedupe` returns `isNew = false` without
raising when inserting an already-recorded id (uniqueness conflict), and
propagates any other storage error; recording the same id twice yields
`true` then `false`; and in the webhook handler the dedupe runs before the
grant, so two deliveries of the same creditable event append exactly one
grant. -/
theorem c3_dedupe_before_grant (store : List String) (e m uuid u : String)
    (st : WebhookState) (c : Nat) :
    (e ≠ "" → e ∈ store → rcDedupe store none (some e) = .ok (false, store)) ∧
    (e ≠ "" → strContains (jsToLower m) "duplicate" = false →
      strContains (jsToLower m) "unique" = false →
      rcDedupe store (some m) (some e) = .error m) ∧
    (e ≠ "" → e ∉ store →
      rcDedupe store none (some e) = .ok (true, store ++ [e]) ∧
        rcDedupe (store ++ [e]) none (some e) = .ok (false, store ++ [e])) ∧
    (e ≠ "" → e ∉ st.events →
      webhookGrantPath st none (some e) uuid u c =
        (.granted, ⟨st.events ++ [e], st.grants ++ [(u, c)]⟩) ∧
        webhookGrantPath ⟨st.events ++ [e], st.grants ++ [(u, c)]⟩ none (some e) uuid u c =
          (.deduped, ⟨st.events ++ [e], st.grants ++ [(u, c)]⟩)) ∧
    (e ≠ "" → strContains (jsToLower m) "duplicate" = false →
      strContains (jsToLower m) "unique" = false →
      webhookGrantPath st (some m) (some e) uuid u c = (.serverError, st)) := by
  have hconf : ∀ s : List String, e ≠ "" → e ∈ s →
      rcDedupe s none (some e) = .ok (false, s) := by
    intro s he hmem
    simp [rcDedupe, insertEvent, if_neg he, if_pos hmem, conflictMsg_contains_duplicate]
  have hnew : ∀ s : List String, e ≠ "" → e ∉ s →
      rcDedupe s none (some e) = .ok (true, s ++ [e]) := by
    intro s he hmem
    simp [rcDedupe, insertEvent, if_neg he, if_neg hmem]
  have herr : e ≠ "" → strContains (jsToLower m) "duplicate" = false →
      strContains (jsToLower m) "unique" = false →
      rcDedupe store (some m) (some e) = .error m := by
    intro he h1 h2
    simp [rcDedupe, insertEvent, if_neg he, h1, h2]
  refine ⟨fun he hm => hconf store he hm, herr, ?_, ?_, ?_⟩
  · intro he hm
    refine ⟨hnew store he hm, hconf (store ++ [e]) he (by simp)⟩
  · intro he hm
    constructor
    · simp only [webhookGrantPath, if_neg he]
      rw [hnew st.events he hm]
    · simp only [webhookGrantPath, if_neg he]
      rw [hconf (st.events ++ [e]) he (by simp)]
  · intro he h1 h2
    simp only [webhookGrantPath, if_neg he]
    rw [show rcDedupe st.events (some m) (some e) = .error m from by
      simp [rcDedupe, insertEvent, if_neg he, h1, h2]]

/-- Concrete run of C3: recording `"ev1"` twice on an empty store grants
once, dedupes the redelivery, and a non-conflict fault propagates. -/
theorem c3_dedupe_before_grant_witness :
    webhookGrantPath ⟨[], []⟩ none (some "ev1") "uuid0" "alice" 10 =
      (.granted, ⟨["ev1"], [("alice", 10)]⟩) ∧
    webhookGrantPath ⟨["ev1"], [("alice", 10)]⟩ none (some "ev1") "uuid1" "alice" 10 =
      (.deduped, ⟨["ev1"], [("alice", 10)]⟩) ∧
    rcDedupe [] (some "connection reset") (some "ev1") = .error "connection reset" := by
  have h := c3_dedupe_before_grant [] "ev1" "connection reset" "uuid0" "alice" ⟨[], []⟩ 10
  have hw := h.2.2.2.1 (by decide) (by simp)
  refine ⟨hw.1, ?_, h.2.1 (by decide) (by decide) (by decide)⟩
  have h2 := c3_dedupe_before_grant [] "ev1" "x" "uuid1" "alice" ⟨[], []⟩ 10
  exact (h2.2.2.2.1 (by decide) (by simp)).2

/-- **C10** (implicit; id-less events are never deduplicated): `rcDedupe`
returns `true` for a falsy event id, the webhook handler records a freshly
generated UUID as the dedupe key when the event carries no id, and two
deliveries of such an id-less creditable event (with distinct fresh UUIDs)
both grant credits. -/
theorem c10_idless_events_never_deduped (st : WebhookState) (u1 u2 appU : String)
    (c : Nat) :
    rcDedupe st.events none none = .ok (true, st.events) ∧
    rcDedupe st.events none (some "") = .ok (true, st.events) ∧
    (u1 ≠ "" → u1 ∉ st.events →
      webhookGrantPath st none none u1 appU c =
        (.granted, ⟨st.events ++ [u1], st.grants ++ [(appU, c)]⟩)) ∧
    (u1 ≠ "" → u2 ≠ "" → u1 ∉ st.events → u2 ∉ st.events → u2 ≠ u1 →
      webhookGrantPath ⟨st.events ++ [u1], st.grants ++ [(appU, c)]⟩ none none u2 appU c =
        (.granted, ⟨st.events ++ [u1] ++ [u2], st.grants ++ [(appU, c)] ++ [(appU, c)]⟩)) := by
  have hnew : ∀ (s : List String) (u : String), u ≠ "" → u ∉ s →
      rcDedupe s none (some u) = .ok (true, s ++ [u]) := by
    intro s u hu hmem
    simp [rcDedupe, insertEvent, if_neg hu, if_neg hmem]
  refine ⟨rfl, by simp [rcDedupe], ?_, ?_⟩
  · intro hu hmem
    simp only [webhookGrantPath]
    rw [hnew st.events u1 hu hmem]
  · intro hu1 hu2 hm1 hm2 hne
    simp only [webhookGrantPath]
    rw [hnew (st.events ++ [u1]) u2 hu2 (by
      intro hmem
      rcases List.mem_append.1 hmem with h | h
      · exact hm2 h
      · exact hne (List.mem_singleton.1 h))]

/-- Concrete run of C10: the same id-less event delivered twice with fresh
UUIDs `"u1"`, `"u2"` grants twice. -/
theorem c10_idless_events_never_deduped_witness :
    webhookGrantPath ⟨[], []⟩ none none "u1" "alice" 25 =
      (.granted, ⟨["u1"], [("alice", 25)]⟩) ∧
    webhookGrantPath ⟨["u1"], [("alice", 25)]⟩ none none "u2" "alice" 25 =
      (.granted, ⟨["u1", "u2"], [("alice", 25), ("alice", 25)]⟩) := by
  have h := c10_idless_events_never_deduped ⟨[], []⟩ "u1" "u2" "alice" 25
  refine ⟨h.2.2.1 (by decide) (by simp), ?_⟩
  have h2 := h.2.2.2 (by decide) (by decide) (by simp) (by simp) (by decide)
  simpa using h2

/-! ## The pro path of POST /thought (src/index.js lines 1105-1149)

After a successful `sbSpendCredits(deviceId, 1)` the handler calls
`generateProThought`; a thrown generation error propagates to the route's
`catch`, which logs and returns `SERVER_ERROR`.  `gen = none` models a
failed generation, `gen = some t` a successful one.  The embedding records
how many `sbGrantCredits` calls the path issues; no `sbGrantCredits` call
occurs anywhere inside `POST /thought`. -/

inductive ProResp (α : Type) where
  | limitReached (remaining : Nat)
  | success (thought : α)
  | serverError
deriving DecidableEq

/-- The pro path, returning the handler's response together with the number
of `sbGrantCredits` calls it issues. -/
def proThoughtPath {α : Type} (spendOk : Bool) (remaining : Nat) (gen : Option α) :
    ProResp α × Nat :=
  if !spendOk then (.limitReached remaining, 0)
  else
    match gen with
    | some t => (.success t, 0)
    | none => (.serverError, 0)

/-- The C1 claim as stated: whenever the spend succeeds and the downstream
generation fails, the handler issues a compensating grant of 1. -/
def c1ClaimHolds : Prop :=
  ∀ (rem : Nat) (gen : Option Nat), gen = none → (proThoughtPath true rem gen).2 = 1

/-- **C1, counterexample**: at the concrete input (spend succeeded,
generation failed) the pro path issues zero grant calls and answers
`SERVER_ERROR`, so the stated claim is false. -/
theorem c1_counterexample :
    proThoughtPath (α := Nat) true 0 none = (.serverError, 0) ∧ ¬c1ClaimHolds := by
  constructor
  · rfl
  · intro h
    have h0 := h 0 none rfl
    have h1 : (proThoughtPath (α := Nat) true 0 none).2 = 0 := rfl
    rw [h1] at h0
    cases h0

/-- **C1, amended**: in the pro path of POST /thought, no compensating
`sbGrantCredits` call is ever issued — a generation failure after a
successful spend yields `SERVER_ERROR` with the spend left in place (zero
grant calls), a successful generation returns the thought, and a failed
spend returns the limit response. -/
theorem c1_no_compensating_grant {α : Type} (rem : Nat) (gen : Option α) :
    (proThoughtPath true rem gen).2 = 0 ∧
    (gen = none → proThoughtPath true rem gen = (.serverError, 0)) ∧
    (∀ t, gen = some t → proThoughtPath true rem gen = (.success t, 0)) ∧
    proThoughtPath false rem gen = (.limitReached rem, 0) := by
  refine ⟨?_, ?_, ?_, rfl⟩
  · cases gen <;> rfl
  · intro h
    subst h
    rfl
  · intro t h
    subst h
    rfl

/-- Concrete instance of the amended C1. -/
theorem c1_no_compensating_grant_witness :
    proThoughtPath (α := Nat) true 3 none = (.serverError, 0) ∧
    proThoughtPath (α := Nat) true 3 (some 7) = (.success 7, 0) := by
  exact ⟨(c1_no_compensating_grant 3 none).2.1 rfl,
    (c1_no_compensating_grant 3 (some 7)).2.2.1 7 rfl⟩

/-! ## buildBankInBackground as a small-step machine
(src/index.js lines 437-472, 474-488)

`buildBankInBackground` is an async function whose suspension points are
exactly its awaited calls (`sbGetTodaysBank`, `generateThoughtBatch`,
`sbUpsertBank`); between two suspension points it runs atomically, since
the process is single-threaded.  The machine below has one step per such
atomic block; in particular the `bankBuildLocks.has` check and
`bankBuildLocks.add` of lines 441-443 form one atomic block with no await
between them.  Two concurrent invocations for the same label are two tasks
interleaved by an arbitrary schedule.  The shared state holds the
`bankBuildLocks` entry for the label, the persisted bank row for
(label, today) and a count of upserts performed.  `generateThoughtBatch` is
an oracle `gen : Nat → Option (List α)` giving the filtered batch of the
k-th loop iteration (`none` models a thrown generation error, which the
`try/catch/finally` turns into an early exit that still releases the
lock).  Bank lines are opaque to the builder, so the content type is a
parameter `α` (`String` in the source). -/

/-- `isValidLabel` (src/index.js line 164): `/^[a-z]{2,24}$/`; the JS
`!label` falsy guard is subsumed by the length bound. -/
def isValidLabel (s : String) : Bool :=
  decide (2 ≤ s.length) && decide (s.length ≤ 24) &&
    s.data.all (fun c => decide ('a' ≤ c) && decide (c ≤ 'z'))

/-- JS `[...new Set(xs)]` (src/index.js line 454): deduplicate, keeping the
first occurrence of each element.  `seen` accumulates the kept elements. -/
def jsDedupAux {α : Type} [DecidableEq α] : List α → List α → List α
  | _, [] => []
  | seen, a :: r =>
    if a ∈ seen then jsDedupAux seen r else a :: jsDedupAux (a :: seen) r

def jsDedup {α : Type} [DecidableEq α] (l : List α) : List α := jsDedupAux [] l

theorem jsDedupAux_sub {α : Type} [DecidableEq α] :
    ∀ (l seen : List α) (a : α), a ∈ jsDedupAux seen l → a ∈ l := by
  intro l
  induction l with
  | nil => intro seen a h; cases h
  | cons b r ih =>
    intro seen a h
    unfold jsDedupAux at h
    by_cases hb : b ∈ seen
    · rw [if_pos hb] at h
      exact List.mem_cons_of_mem b (ih seen a h)
    · rw [if_neg hb] at h
      rcases List.mem_cons.1 h with rfl | h2
      · exact List.mem_cons_self a r
      · exact List.mem_cons_of_mem b (ih (b :: seen) a h2)

theorem jsDedupAux_not_seen {α : Type} [DecidableEq α] :
    ∀ (l seen : List α) (a : α), a ∈ jsDedupAux seen l → a ∉ seen := by
  intro l
  induction l with
  | nil => intro seen a h; cases h
  | cons b r ih =>
    intro seen a h
    unfold jsDedupAux at h
    by_cases hb : b ∈ seen
    · rw [if_pos hb] at h
      exact ih seen a h
    · rw [if_neg hb] at h
      rcases List.mem_cons.1 h with rfl | h2
      · exact hb
      · intro hla
        exact ih (b :: seen) a h2 (List.mem_cons_of_mem b hla)

theorem jsDedupAux_nodup {α : Type} [DecidableEq α] :
    ∀ (l seen : List α), (jsDedupAux seen l).Nodup := by
  intro l
  induction l with
  | nil => intro seen; simp [jsDedupAux]
  | cons b r ih =>
    intro seen
    unfold jsDedupAux
    by_cases hb : b ∈ seen
    · rw [if_pos hb]
      exact ih seen
    · rw [if_neg hb]
      rw [List.nodup_cons]
      exact ⟨fun hmem => jsDedupAux_not_seen r (b :: seen) b hmem (List.mem_cons_self b seen),
        ih (b :: seen)⟩

theorem jsDedup_nodup {α : Type} [DecidableEq α] (l : List α) : (jsDedup l).Nodup :=
  jsDedupAux_nodup l []

theorem jsDedupAux_length_le {α : Type} [DecidableEq α] :
    ∀ (l seen : List α), (jsDedupAux seen l).length ≤ l.length := by
  intro l
  induction l with
  | nil => intro seen; simp [jsDedupAux]
  | cons b r ih =>
    intro seen
    unfold jsDedupAux
    by_cases hb : b ∈ seen
    · rw [if_pos hb]
      exact Nat.le_succ_of_le (ih seen)
    · rw [if_neg hb]
      simpa using ih (b :: seen)

theorem jsDedup_length_le {α : Type} [DecidableEq α] (l : List α) :
    (jsDedup l).length ≤ l.length :=
  jsDedupAux_length_le l []

inductive BuildPc where
  | start
  | getBank
  | loopStep (k : Nat)
  | finishStep
  | persistStep
  | release
  | done
deriving DecidableEq

structure BuildTask (α : Type) where
  pc : BuildPc
  acc : List α
  nooped : Bool
deriving DecidableEq

structure BankShared (α : Type) where
  lock : Bool
  bank : Option (List α)
  persists : Nat
deriving DecidableEq

/-- JS truthiness of `existing?.length` for the `sbGetTodaysBank` result. -/
def bankNonempty {α : Type} : Option (List α) → Bool
  | none => false
  | some l => !l.isEmpty

/-- One atomic block of `buildBankInBackground`:
* `start`: lines 440-443 — validity check, lock check, lock acquisition, and
  the call into `sbGetTodaysBank`;
* `getBank`: lines 445-450 — resume with today's bank (`catch` makes store
  errors read as `null`); a non-empty bank returns early (through the
  `finally`); otherwise enter the batch loop;
* `loopStep k`: lines 451-456 — the `while` guard and one resumed batch:
  a thrown generation error exits via catch/finally; otherwise push, dedupe,
  and either break (batch below 8), loop, or leave the loop;
* `finishStep`: lines 458-463 — truncate to capacity and reject undersized
  results (no persist);
* `persistStep`: line 465 — the awaited `sbUpsertBank` write;
* `release`: line 470 — the `finally` clears the lock entry. -/
def buildStep {α : Type} [DecidableEq α] (valid : Bool) (gen : Nat → Option (List α))
    (s : BankShared α) (t : BuildTask α) : BankShared α × BuildTask α :=
  match t.pc with
  | .start =>
    if !valid then (s, { t with pc := .done, nooped := true })
    else if s.lock then (s, { t with pc := .done, nooped := true })
    else ({ s with lock := true }, { t with pc := .getBank })
  | .getBank =>
    if bankNonempty s.bank then (s, { t with pc := .release })
    else (s, { t with pc := .loopStep 0, acc := [] })
  | .loopStep k =>
    if CONFIG_BANK_DAILY_SIZE ≤ t.acc.length then (s, { t with pc := .finishStep })
    else
      match gen k with
      | none => (s, { t with pc := .release })
      | some batch =>
        if batch.length < 8 then
          (s, { t with pc := .finishStep, acc := jsDedup (t.acc ++ batch) })
        else
          (s, { t with pc := .loopStep (k + 1), acc := jsDedup (t.acc ++ batch) })
  | .finishStep =>
    if (t.acc.take CONFIG_BANK_DAILY_SIZE).length < CONFIG_BANK_LEARN_MIN_ACCEPT then
      (s, { t with pc := .release, acc := t.acc.take CONFIG_BANK_DAILY_SIZE })
    else
      (s, { t with pc := .persistStep, acc := t.acc.take CONFIG_BANK_DAILY_SIZE })
  | .persistStep =>
    ({ s with bank := some t.acc, persists := s.persists + 1 }, { t with pc := .release })
  | .release => ({ s with lock := false }, { t with pc := .done })
  | .done => (s, t)

structure BankSt (α : Type) where
  shared : BankShared α
  t1 : BuildTask α
  t2 : BuildTask α
deriving DecidableEq

/-- One scheduler step: `who = true` advances task 1, else task 2. -/
def bankStep {α : Type} [DecidableEq α] (valid : Bool) (gen : Nat → Option (List α))
    (st : BankSt α) (who : Bool) : BankSt α :=
  if who then
    let p := buildStep valid gen st.shared st.t1
    ⟨p.1, p.2, st.t2⟩
  else
    let p := buildStep valid gen st.shared st.t2
    ⟨p.1, st.t1, p.2⟩

def bankRun {α : Type} [DecidableEq α] (valid : Bool) (gen : Nat → Option (List α))
    (sched : List Bool) (st : BankSt α) : BankSt α :=
  sched.foldl (bankStep valid gen) st

def initTask {α : Type} : BuildTask α := ⟨.start, [], false⟩

/-- Two queued invocations, lock free, no bank persisted for (label, today). -/
def bankInit {α : Type} : BankSt α := ⟨⟨false, none, 0⟩, initTask, initTask⟩

/-! ### The general machine invariant (any oracle, any label) -/

/-- Program counters at which the task holds the build lock. -/
def activePc : BuildPc → Bool
  | .start => false
  | .done => false
  | .getBank => true
  | .loopStep _ => true
  | .finishStep => true
  | .persistStep => true
  | .release => true

/-- Per-task facts tied to the program counter. -/
def TaskOkPc {α : Type} (persists : Nat) (bank : Option (List α)) (acc : List α) :
    BuildPc → Prop
  | .loopStep _ => acc.Nodup ∧ persists = 0 ∧ bank = none
  | .finishStep => acc.Nodup ∧ persists = 0 ∧ bank = none
  | .persistStep => acc.Nodup ∧ CONFIG_BANK_LEARN_MIN_ACCEPT ≤ acc.length ∧
      acc.length ≤ CONFIG_BANK_DAILY_SIZE ∧ persists = 0 ∧ bank = none
  | _ => True

def TaskOk {α : Type} (s : BankShared α) (t : BuildTask α) : Prop :=
  TaskOkPc s.persists s.bank t.acc t.pc

/-- The persisted bank is absent, or exactly one upsert wrote a deduplicated
bank of acceptable size. -/
def SharedOk {α : Type} (s : BankShared α) : Prop :=
  (s.persists = 0 ∧ s.bank = none) ∨
    (s.persists = 1 ∧ ∃ l, s.bank = some l ∧ l ≠ [] ∧ l.Nodup ∧
      CONFIG_BANK_LEARN_MIN_ACCEPT ≤ l.length ∧ l.length ≤ CONFIG_BANK_DAILY_SIZE)

def GInv {α : Type} (st : BankSt α) : Prop :=
  ¬(activePc st.t1.pc = true ∧ activePc st.t2.pc = true) ∧
    st.shared.lock = (activePc st.t1.pc || activePc st.t2.pc) ∧
    SharedOk st.shared ∧ TaskOk st.shared st.t1 ∧ TaskOk st.shared st.t2

theorem taskOk_of_inactive {α : Type} {persists : Nat} {bank : Option (List α)}
    {acc : List α} {pc : BuildPc} (h : activePc pc = false) :
    TaskOkPc persists bank acc pc := by
  cases pc <;> simp [activePc] at h ⊢ <;> trivial

theorem bankNonempty_some_iff {α : Type} {l : List α} :
    bankNonempty (some l) = true ↔ l ≠ [] := by
  simp [bankNonempty, List.isEmpty_iff]

theorem buildStep_preserves {α : Type} [DecidableEq α] (valid : Bool)
    (gen : Nat → Option (List α)) (s : BankShared α) (t other : BuildTask α)
    (hmutex : ¬(activePc t.pc = true ∧ activePc other.pc = true))
    (hlock : s.lock = (activePc t.pc || activePc other.pc))
    (hs : SharedOk s) (ht : TaskOk s t) (hother : TaskOk s other) :
    ¬(activePc (buildStep valid gen s t).2.pc = true ∧ activePc other.pc = true) ∧
    ((buildStep valid gen s t).1.lock =
      (activePc (buildStep valid gen s t).2.pc || activePc other.pc)) ∧
    SharedOk (buildStep valid gen s t).1 ∧
    TaskOk (buildStep valid gen s t).1 (buildStep valid gen s t).2 ∧
    TaskOk (buildStep valid gen s t).1 other := by
  have hinactive : activePc t.pc = true → activePc other.pc = false := by
    intro h
    rcases ho : activePc other.pc with _ | _
    · rfl
    · exact absurd ⟨h, ho⟩ hmutex
  obtain ⟨pc, acc, nooped⟩ := t
  cases pc with
  | start =>
    simp only [buildStep]
    by_cases hv : valid
    · simp only [hv, Bool.not_true, Bool.false_eq_true, if_false]
      by_cases hl : s.lock = true
      · simp only [if_pos hl]
        refine ⟨by simp [activePc], by simpa [activePc] using hlock, hs,
          by simp [TaskOk, TaskOkPc], hother⟩
      · have hl' : s.lock = false := by simpa using hl
        simp only [hl', Bool.false_eq_true, if_false]
        have hoth : activePc other.pc = false := by
          rw [hl'] at hlock
          simpa [activePc] using hlock.symm
        refine ⟨by rw [hoth]; simp, by rw [hoth]; simp [activePc], hs,
          by simp [TaskOk, TaskOkPc], hother⟩
    · have hv' : valid = false := by simpa using hv
      simp only [hv', Bool.not_false, if_true]
      refine ⟨by simp [activePc], by simpa [activePc] using hlock, hs,
        by simp [TaskOk, TaskOkPc], hother⟩
  | getBank =>
    simp only [buildStep]
    by_cases hb : bankNonempty s.bank = true
    · simp only [if_pos hb]
      refine ⟨by simpa [activePc] using hmutex, by simpa [activePc] using hlock, hs,
        by simp [TaskOk, TaskOkPc], hother⟩
    · have hb' : bankNonempty s.bank = false := by simpa using hb
      simp only [hb', Bool.false_eq_true, if_false]
      have hnone : s.persists = 0 ∧ s.bank = none := by
        rcases hs with ⟨hp, hbk⟩ | ⟨hp, l, hbk, hne, _⟩
        · exact ⟨hp, hbk⟩
        · rw [hbk] at hb'
          rw [show bankNonempty (some l) = true from bankNonempty_some_iff.2 hne] at hb'
          cases hb'
      refine ⟨by simpa [activePc] using hmutex, by simpa [activePc] using hlock, hs,
        ?_, hother⟩
      simp [TaskOk, TaskOkPc, hnone.1, hnone.2]
  | loopStep k =>
    obtain ⟨hnd, hp0, hb0⟩ := ht
    simp only [buildStep]
    by_cases hfull : CONFIG_BANK_DAILY_SIZE ≤ acc.length
    · simp only [if_pos hfull]
      refine ⟨by simpa [activePc] using hmutex, by simpa [activePc] using hlock, hs,
        ?_, hother⟩
      exact ⟨hnd, hp0, hb0⟩
    · simp only [if_neg hfull]
      cases hg : gen k with
      | none =>
        refine ⟨by simpa [activePc] using hmutex, by simpa [activePc] using hlock, hs,
          by simp [TaskOk, TaskOkPc], hother⟩
      | some batch =>
        by_cases hsmall : batch.length < 8
        · simp only [if_pos hsmall]
          refine ⟨by simpa [activePc] using hmutex, by simpa [activePc] using hlock, hs,
            ?_, hother⟩
          exact ⟨jsDedup_nodup _, hp0, hb0⟩
        · simp only [if_neg hsmall]
          refine ⟨by simpa [activePc] using hmutex, by simpa [activePc] using hlock, hs,
            ?_, hother⟩
          exact ⟨jsDedup_nodup _, hp0, hb0⟩
  | finishStep =>
    obtain ⟨hnd, hp0, hb0⟩ := ht
    simp only [buildStep]
    by_cases hrej : (acc.take CONFIG_BANK_DAILY_SIZE).length < CONFIG_BANK_LEARN_MIN_ACCEPT
    · simp only [if_pos hrej]
      refine ⟨by simpa [activePc] using hmutex, by simpa [activePc] using hlock, hs,
        by simp [TaskOk, TaskOkPc], hother⟩
    · simp only [if_neg hrej]
      refine ⟨by simpa [activePc] using hmutex, by simpa [activePc] using hlock, hs,
        ?_, hother⟩
      simp only [TaskOk, TaskOkPc]
      refine ⟨(List.take_sublist _ _).nodup hnd, by omega, ?_, hp0, hb0⟩
      simp
  | persistStep =>
    obtain ⟨hnd, hmin, hmax, hp0, hb0⟩ := ht
    have hoth : activePc other.pc = false := hinactive (by simp [activePc])
    simp only [buildStep]
    refine ⟨by simpa [activePc] using hmutex, by simpa [activePc] using hlock, ?_, ?_, ?_⟩
    · refine Or.inr ⟨by simp [hp0], acc, rfl, ?_, hnd, hmin, hmax⟩
      intro h0
      rw [h0] at hmin
      simp [CONFIG_BANK_LEARN_MIN_ACCEPT] at hmin
    · simp [TaskOk, TaskOkPc]
    · exact taskOk_of_inactive hoth
  | release =>
    have hoth : activePc other.pc = false := hinactive (by simp [activePc])
    simp only [buildStep]
    refine ⟨by simp [activePc], by rw [hoth]; simp [activePc], hs,
      by simp [TaskOk, TaskOkPc], hother⟩
  | done =>
    simp only [buildStep]
    exact ⟨hmutex, hlock, hs, ht, hother⟩

theorem bankStep_GInv {α : Type} [DecidableEq α] {valid : Bool}
    {gen : Nat → Option (List α)} {st : BankSt α} (who : Bool) (h : GInv st) :
    GInv (bankStep valid gen st who) := by
  obtain ⟨hmutex, hlock, hs, h1, h2⟩ := h
  cases who with
  | true =>
    have hp := buildStep_preserves valid gen st.shared st.t1 st.t2 hmutex hlock hs h1 h2
    exact ⟨hp.1, hp.2.1, hp.2.2.1, hp.2.2.2.1, hp.2.2.2.2⟩
  | false =>
    have hmutex' : ¬(activePc st.t2.pc = true ∧ activePc st.t1.pc = true) := by
      intro h
      exact hmutex ⟨h.2, h.1⟩
    have hlock' : st.shared.lock = (activePc st.t2.pc || activePc st.t1.pc) := by
      rw [hlock, Bool.or_comm]
    have hp := buildStep_preserves valid gen st.shared st.t2 st.t1 hmutex' hlock' hs h2 h1
    exact ⟨fun h => hp.1 ⟨h.2, h.1⟩, hp.2.1.trans (Bool.or_comm _ _), hp.2.2.1,
      hp.2.2.2.2, hp.2.2.2.1⟩

theorem bankRun_GInv {α : Type} [DecidableEq α] (valid : Bool)
    (gen : Nat → Option (List α)) (sched : List Bool) (st : BankSt α) (h : GInv st) :
    GInv (bankRun valid gen sched st) := by
  induction sched generalizing st with
  | nil => exact h
  | cons w ws ih =>
    rw [bankRun, List.foldl_cons]
    exact ih _ (bankStep_GInv w h)

theorem bankInit_GInv {α : Type} : GInv (bankInit (α := α)) := by
  refine ⟨by simp [bankInit, initTask, activePc], by simp [bankInit, initTask, activePc],
    Or.inl ⟨rfl, rfl⟩, by simp [bankInit, initTask, TaskOk, TaskOkPc],
    by simp [bankInit, initTask, TaskOk, TaskOkPc]⟩

/-! ### The successful-generation invariant

Under a valid label, `gen 0 = some L`, and enough distinct lines in the
first batch (`CONFIG_BANK_DAILY_SIZE ≤ (jsDedup L).length`), the path of
whichever task acquires the lock is forced, and it persists exactly
`(jsDedup L).take CONFIG_BANK_DAILY_SIZE`. -/

def HTaskPc {α : Type} [DecidableEq α] (L : List α) (persists : Nat)
    (acc : List α) (nooped : Bool) : BuildPc → Prop
  | .loopStep k => (k = 0 ∧ acc = []) ∨
      (acc = jsDedup L ∧ CONFIG_BANK_DAILY_SIZE ≤ acc.length)
  | .finishStep => acc = jsDedup L ∧ CONFIG_BANK_DAILY_SIZE ≤ acc.length
  | .persistStep => acc = (jsDedup L).take CONFIG_BANK_DAILY_SIZE
  | .release => persists = 1
  | .done => nooped = false → persists = 1
  | _ => True

def HTask {α : Type} [DecidableEq α] (L : List α) (s : BankShared α)
    (t : BuildTask α) : Prop :=
  HTaskPc L s.persists t.acc t.nooped t.pc

def HInv {α : Type} [DecidableEq α] (L : List α) (st : BankSt α) : Prop :=
  HTask L st.shared st.t1 ∧ HTask L st.shared st.t2 ∧
    (st.shared.persists = 1 →
      st.shared.bank = some ((jsDedup L).take CONFIG_BANK_DAILY_SIZE)) ∧
    (st.t1.nooped = true → st.t1.pc = .done) ∧
    (st.t2.nooped = true → st.t2.pc = .done) ∧
    ¬(st.t1.nooped = true ∧ st.t2.nooped = true)

def FullInv {α : Type} [DecidableEq α] (L : List α) (st : BankSt α) : Prop :=
  GInv st ∧ HInv L st

theorem buildStepH_preserves {α : Type} [DecidableEq α]
    (gen : Nat → Option (List α)) (L : List α) (hg : gen 0 = some L)
    (hL : CONFIG_BANK_DAILY_SIZE ≤ (jsDedup L).length)
    (s : BankShared α) (t other : BuildTask α)
    (hmutex : ¬(activePc t.pc = true ∧ activePc other.pc = true))
    (hlock : s.lock = (activePc t.pc || activePc other.pc))
    (hs : SharedOk s) (ht : TaskOk s t)
    (hHt : HTask L s t) (hHo : HTask L s other)
    (hpers : s.persists = 1 → s.bank = some ((jsDedup L).take CONFIG_BANK_DAILY_SIZE))
    (hNt : t.nooped = true → t.pc = .done)
    (hNo : other.nooped = true → other.pc = .done)
    (hNN : ¬(t.nooped = true ∧ other.nooped = true)) :
    HTask L (buildStep true gen s t).1 (buildStep true gen s t).2 ∧
    HTask L (buildStep true gen s t).1 other ∧
    ((buildStep true gen s t).1.persists = 1 →
      (buildStep true gen s t).1.bank = some ((jsDedup L).take CONFIG_BANK_DAILY_SIZE)) ∧
    ((buildStep true gen s t).2.nooped = true → (buildStep true gen s t).2.pc = .done) ∧
    ¬((buildStep true gen s t).2.nooped = true ∧ other.nooped = true) := by
  obtain ⟨pc, acc, nooped⟩ := t
  cases pc with
  | start =>
    simp only [buildStep, Bool.not_true, Bool.false_eq_true, if_false]
    by_cases hl : s.lock = true
    · simp only [if_pos hl]
      have hoth : activePc other.pc = true := by
        rw [hl] at hlock
        simpa [activePc] using hlock.symm
      have hono : other.nooped = false := by
        rcases hno : other.nooped with _ | _
        · rfl
        · rw [hNo hno] at hoth
          simp [activePc] at hoth
      refine ⟨by simp [HTask, HTaskPc], hHo, hpers, ?_, ?_⟩
      · intro hn
        trivial
      · simp [hono]
    · have hl' : s.lock = false := by simpa using hl
      simp only [hl', Bool.false_eq_true, if_false]
      refine ⟨by simp [HTask, HTaskPc], hHo, hpers, ?_, ?_⟩
      · intro hn
        exact absurd (hNt hn) (by simp)
      · exact hNN
  | getBank =>
    simp only [buildStep]
    by_cases hb : bankNonempty s.bank = true
    · simp only [if_pos hb]
      have hp1 : s.persists = 1 := by
        rcases hs with ⟨hp, hbk⟩ | ⟨hp, l, hbk, hne, _⟩
        · rw [hbk] at hb
          simp [bankNonempty] at hb
        · exact hp
      refine ⟨by simpa [HTask, HTaskPc] using hp1, hHo, hpers, ?_, ?_⟩
      · intro hn
        exact absurd (hNt hn) (by simp)
      · exact hNN
    · have hb' : bankNonempty s.bank = false := by simpa using hb
      simp only [hb', Bool.false_eq_true, if_false]
      refine ⟨by simp [HTask, HTaskPc], hHo, hpers, ?_, ?_⟩
      · intro hn
        exact absurd (hNt hn) (by simp)
      · exact hNN
  | loopStep k =>
    simp only [buildStep]
    rcases hHt with ⟨hk, hacc⟩ | ⟨hacc, hlen⟩
    · have hacc' : acc = [] := hacc
      subst hacc'
      have hk' : k = 0 := hk
      subst hk'
      rw [if_neg (by simp [CONFIG_BANK_DAILY_SIZE])]
      have hbig : ¬L.length < 8 := by
        have := jsDedup_length_le L
        simp only [CONFIG_BANK_DAILY_SIZE] at hL
        omega
      simp only [hg]
      rw [if_neg hbig]
      refine ⟨?_, hHo, hpers, ?_, ?_⟩
      · simp only [HTask, HTaskPc, List.nil_append]
        exact Or.inr ⟨by trivial, hL⟩
      · intro hn
        exact absurd (hNt hn) (by simp)
      · exact hNN
    · have hacc' : acc = jsDedup L := hacc
      have hlen' : CONFIG_BANK_DAILY_SIZE ≤ acc.length := hlen
      rw [if_pos hlen']
      refine ⟨?_, hHo, hpers, ?_, ?_⟩
      · simp only [HTask, HTaskPc]
        exact ⟨hacc', hlen'⟩
      · intro hn
        exact absurd (hNt hn) (by simp)
      · exact hNN
  | finishStep =>
    simp only [buildStep]
    obtain ⟨hacc, hlen⟩ := hHt
    have hacc' : acc = jsDedup L := hacc
    have hlen' : CONFIG_BANK_DAILY_SIZE ≤ acc.length := hlen
    have htake : (acc.take CONFIG_BANK_DAILY_SIZE).length = CONFIG_BANK_DAILY_SIZE := by
      rw [List.length_take]
      omega
    rw [if_neg (by
      rw [htake]
      simp [CONFIG_BANK_DAILY_SIZE, CONFIG_BANK_LEARN_MIN_ACCEPT])]
    refine ⟨?_, hHo, hpers, ?_, ?_⟩
    · simp only [HTask, HTaskPc]
      rw [hacc']
    · intro hn
      exact absurd (hNt hn) (by simp)
    · exact hNN
  | persistStep =>
    simp only [buildStep]
    obtain ⟨hnd, hmin, hmax, hp0, hb0⟩ := ht
    have hoth : activePc other.pc = false := by
      rcases ho : activePc other.pc with _ | _
      · rfl
      · exact absurd ⟨by simp [activePc], ho⟩ hmutex
    have hacc : acc = (jsDedup L).take CONFIG_BANK_DAILY_SIZE := hHt
    refine ⟨by simp [HTask, HTaskPc, hp0], ?_, ?_, ?_, ?_⟩
    · cases hopc : other.pc with
      | done =>
        have hHo2 := hHo
        rw [HTask, hopc] at hHo2
        simp only [HTask, HTaskPc, hopc]
        intro hono
        have hp1 := hHo2 hono
        rw [hp0] at hp1
        cases hp1
      | start => simp [HTask, HTaskPc, hopc]
      | getBank => rw [hopc] at hoth; simp [activePc] at hoth
      | loopStep k => rw [hopc] at hoth; simp [activePc] at hoth
      | finishStep => rw [hopc] at hoth; simp [activePc] at hoth
      | persistStep => rw [hopc] at hoth; simp [activePc] at hoth
      | release => rw [hopc] at hoth; simp [activePc] at hoth
    · intro _
      exact congrArg Option.some hacc
    · intro hn
      exact absurd (hNt hn) (by simp)
    · exact hNN
  | release =>
    simp only [buildStep]
    have hp1 : s.persists = 1 := hHt
    refine ⟨by simp [HTask, HTaskPc, hp1], hHo, hpers, ?_, ?_⟩
    · intro hn
      trivial
    · exact hNN
  | done =>
    simp only [buildStep]
    exact ⟨hHt, hHo, hpers, fun _ => trivial, hNN⟩

theorem bankStep_FullInv {α : Type} [DecidableEq α]
    {gen : Nat → Option (List α)} {L : List α} (hg : gen 0 = some L)
    (hL : CONFIG_BANK_DAILY_SIZE ≤ (jsDedup L).length)
    {st : BankSt α} (who : Bool) (h : FullInv L st) :
    FullInv L (bankStep true gen st who) := by
  obtain ⟨⟨hmutex, hlock, hs, h1, h2⟩, hH1, hH2, hpers, hN1, hN2, hNN⟩ := h
  have hG : GInv (bankStep true gen st who) :=
    bankStep_GInv who ⟨hmutex, hlock, hs, h1, h2⟩
  refine ⟨hG, ?_⟩
  cases who with
  | true =>
    have hp := buildStepH_preserves gen L hg hL st.shared st.t1 st.t2 hmutex hlock hs h1
      hH1 hH2 hpers hN1 hN2 hNN
    exact ⟨hp.1, hp.2.1, hp.2.2.1, hp.2.2.2.1, hN2, hp.2.2.2.2⟩
  | false =>
    have hmutex' : ¬(activePc st.t2.pc = true ∧ activePc st.t1.pc = true) :=
      fun h => hmutex ⟨h.2, h.1⟩
    have hlock' : st.shared.lock = (activePc st.t2.pc || activePc st.t1.pc) :=
      hlock.trans (Bool.or_comm _ _)
    have hNN' : ¬(st.t2.nooped = true ∧ st.t1.nooped = true) := fun h => hNN ⟨h.2, h.1⟩
    have hp := buildStepH_preserves gen L hg hL st.shared st.t2 st.t1 hmutex' hlock' hs h2
      hH2 hH1 hpers hN2 hN1 hNN'
    exact ⟨hp.2.1, hp.1, hp.2.2.1, hN1, hp.2.2.2.1, fun h => hp.2.2.2.2 ⟨h.2, h.1⟩⟩

theorem bankRun_FullInv {α : Type} [DecidableEq α]
    {gen : Nat → Option (List α)} {L : List α} (hg : gen 0 = some L)
    (hL : CONFIG_BANK_DAILY_SIZE ≤ (jsDedup L).length)
    (sched : List Bool) (st : BankSt α) (h : FullInv L st) :
    FullInv L (bankRun true gen sched st) := by
  induction sched generalizing st with
  | nil => exact h
  | cons w ws ih =>
    rw [bankRun, List.foldl_cons]
    exact ih _ (bankStep_FullInv hg hL w h)

theorem bankInit_FullInv {α : Type} [DecidableEq α] {L : List α} :
    FullInv (α := α) L bankInit := by
  refine ⟨bankInit_GInv, by simp [bankInit, initTask, HTask, HTaskPc, HInv]⟩

/-- **C2** (single-flight builds): a `buildBankInBackground` call with an
invalid label, or while the build lock for the label is held, is a no-op
that changes no shared state; a settled call never acts again; the lock is
released on every exit path, so after any two interleaved calls have both
settled the lock key is absent — for every generation oracle (including
thrown errors and rejected under-sized builds) and every schedule; and when
the first batch provides enough distinct lines, two concurrent calls for a
label with no existing bank persist exactly one BankEntry for
(label, today), whatever the interleaving. -/
theorem c2_single_flight {α : Type} [DecidableEq α] (valid : Bool)
    (gen : Nat → Option (List α)) (sched : List Bool) (L : List α)
    (s : BankShared α) (t : BuildTask α) :
    (t.pc = .start → valid = false →
      buildStep valid gen s t = (s, { t with pc := .done, nooped := true })) ∧
    (t.pc = .start → s.lock = true →
      buildStep valid gen s t = (s, { t with pc := .done, nooped := true })) ∧
    (t.pc = .done → buildStep valid gen s t = (s, t)) ∧
    ((bankRun valid gen sched bankInit).t1.pc = .done →
      (bankRun valid gen sched bankInit).t2.pc = .done →
      (bankRun valid gen sched bankInit).shared.lock = false) ∧
    (valid = true → gen 0 = some L → CONFIG_BANK_DAILY_SIZE ≤ (jsDedup L).length →
      (bankRun valid gen sched bankInit).t1.pc = .done →
      (bankRun valid gen sched bankInit).t2.pc = .done →
      (bankRun valid gen sched bankInit).shared.persists = 1 ∧
        (bankRun valid gen sched bankInit).shared.bank =
          some ((jsDedup L).take CONFIG_BANK_DAILY_SIZE) ∧
        (bankRun valid gen sched bankInit).shared.lock = false) := by
  refine ⟨?_, ?_, ?_, ?_, ?_⟩
  · intro hpc hv
    subst hv
    obtain ⟨pc, acc, nooped⟩ := t
    have hpc' : pc = .start := hpc
    subst hpc'
    simp [buildStep]
  · intro hpc hl
    obtain ⟨pc, acc, nooped⟩ := t
    have hpc' : pc = .start := hpc
    subst hpc'
    cases valid with
    | false => simp [buildStep]
    | true => simp [buildStep, hl]
  · intro hpc
    obtain ⟨pc, acc, nooped⟩ := t
    have hpc' : pc = .done := hpc
    subst hpc'
    simp [buildStep]
  · intro h1 h2
    have hG := bankRun_GInv valid gen sched bankInit bankInit_GInv
    rw [hG.2.1, h1, h2]
    rfl
  · intro hv hg hL h1 h2
    subst hv
    have hF := bankRun_FullInv hg hL sched bankInit bankInit_FullInv
    obtain ⟨hG, hH1, hH2, hpers, hN1, hN2, hNN⟩ := hF
    have hper1 : (bankRun true gen sched bankInit).shared.persists = 1 := by
      rcases hb1 : (bankRun true gen sched bankInit).t1.nooped with _ | _
      · have hH1' := hH1
        unfold HTask at hH1'
        rw [h1] at hH1'
        exact hH1' hb1
      · have hb2 : (bankRun true gen sched bankInit).t2.nooped = false := by
          rcases hb2 : (bankRun true gen sched bankInit).t2.nooped with _ | _
          · rfl
          · exact absurd ⟨hb1, hb2⟩ hNN
        have hH2' := hH2
        unfold HTask at hH2'
        rw [h2] at hH2'
        exact hH2' hb2
    refine ⟨hper1, hpers hper1, ?_⟩
    rw [hG.2.1, h1, h2]
    rfl

set_option maxRecDepth 20000 in
/-- Concrete runs of C2: the no-op cases, and the canonical interleaving in
which task 1 builds and persists a 100-line bank while task 2 no-ops at the
lock and then finds today's bank present — exactly one persisted entry and
a free lock at the end. -/
theorem c2_single_flight_witness :
    buildStep false (fun _ => some (List.range 100)) ⟨false, none, 0⟩
        (⟨.start, [], false⟩ : BuildTask Nat) =
      (⟨false, none, 0⟩, ⟨.done, [], true⟩) ∧
    buildStep true (fun _ => some (List.range 100)) ⟨true, none, 0⟩
        (⟨.start, [], false⟩ : BuildTask Nat) =
      (⟨true, none, 0⟩, ⟨.done, [], true⟩) ∧
    buildStep true (fun _ => some (List.range 100)) ⟨true, none, 0⟩
        (⟨.done, [], false⟩ : BuildTask Nat) =
      (⟨true, none, 0⟩, ⟨.done, [], false⟩) ∧
    (bankRun true (fun _ => some (List.range 100))
        [true, true, true, true, true, true, true, false, false, false]
        (bankInit (α := Nat))).shared.persists = 1 ∧
    (bankRun true (fun _ => some (List.range 100))
        [true, true, true, true, true, true, true, false, false, false]
        (bankInit (α := Nat))).shared.bank =
      some ((jsDedup (List.range 100)).take CONFIG_BANK_DAILY_SIZE) ∧
    (bankRun true (fun _ => some (List.range 100))
        [true, true, true, true, true, true, true, false, false, false]
        (bankInit (α := Nat))).shared.lock = false := by
  have hA := (c2_single_flight false (fun _ => some (List.range 100)) [] (List.range 100)
      ⟨false, none, 0⟩ ⟨.start, [], false⟩).1 rfl rfl
  have hB := (c2_single_flight true (fun _ => some (List.range 100)) [] (List.range 100)
      ⟨true, none, 0⟩ ⟨.start, [], false⟩).2.1 rfl rfl
  have hD := (c2_single_flight true (fun _ => some (List.range 100)) [] (List.range 100)
      ⟨true, none, 0⟩ ⟨.done, [], false⟩).2.2.1 rfl
  have hC := (c2_single_flight true (fun _ => some (List.range 100))
      [true, true, true, true, true, true, true, false, false, false] (List.range 100)
      ⟨true, none, 0⟩ ⟨.start, [], false⟩).2.2.2.2 rfl rfl
      (by decide) (by decide) (by decide)
  exact ⟨hA, hB, hD, hC.1, hC.2.1, hC.2.2⟩

/-- **C7** (persisted-bank invariant): any bank persisted by the build
machine — starting from no bank, over every oracle and schedule — is
deduplicated, of size at most `BANK_DAILY_SIZE` (100) and at least
`BANK_LEARN_MIN_ACCEPT` (30); with no persist the bank stays absent; and a
build whose truncated total falls below the minimum exits through the
release path with the shared state untouched — the attempt is discarded,
never persisted. -/
theorem c7_persisted_bank_invariant {α : Type} [DecidableEq α] (valid : Bool)
    (gen : Nat → Option (List α)) (sched : List Bool) (s : BankShared α)
    (t : BuildTask α) :
    (∀ ts, (bankRun valid gen sched bankInit).shared.bank = some ts →
      ts.Nodup ∧ CONFIG_BANK_LEARN_MIN_ACCEPT ≤ ts.length ∧
        ts.length ≤ CONFIG_BANK_DAILY_SIZE ∧
        (bankRun valid gen sched bankInit).shared.persists = 1) ∧
    ((bankRun valid gen sched bankInit).shared.persists = 0 →
      (bankRun valid gen sched bankInit).shared.bank = none) ∧
    (t.pc = .finishStep →
      (t.acc.take CONFIG_BANK_DAILY_SIZE).length < CONFIG_BANK_LEARN_MIN_ACCEPT →
      buildStep valid gen s t =
        (s, { t with pc := .release, acc := t.acc.take CONFIG_BANK_DAILY_SIZE })) := by
  have hG := bankRun_GInv valid gen sched bankInit bankInit_GInv
  refine ⟨?_, ?_, ?_⟩
  · intro ts hts
    rcases hG.2.2.1 with ⟨hp, hb⟩ | ⟨hp, l, hb, hne, hnd, hmin, hmax⟩
    · rw [hts] at hb
      cases hb
    · rw [hts] at hb
      obtain rfl : ts = l := (Option.some_injective _ hb.symm).symm
      exact ⟨hnd, hmin, hmax, hp⟩
  · intro hp
    rcases hG.2.2.1 with ⟨_, hb⟩ | ⟨hp1, _⟩
    · exact hb
    · rw [hp] at hp1
      cases hp1
  · intro hpc hrej
    obtain ⟨pc, acc, nooped⟩ := t
    have hpc' : pc = .finishStep := hpc
    subst hpc'
    have hrej' : (acc.take CONFIG_BANK_DAILY_SIZE).length < CONFIG_BANK_LEARN_MIN_ACCEPT :=
      hrej
    simp only [buildStep]
    rw [if_pos hrej']

set_option maxRecDepth 20000 in
/-- Concrete instances of C7: the successfully persisted bank of the C2 run
satisfies the invariant, an empty run persists nothing, and a 2-line build
attempt is discarded without touching the shared state. -/
theorem c7_persisted_bank_invariant_witness :
    ((jsDedup (List.range 100)).take CONFIG_BANK_DAILY_SIZE).Nodup ∧
    CONFIG_BANK_LEARN_MIN_ACCEPT ≤
      ((jsDedup (List.range 100)).take CONFIG_BANK_DAILY_SIZE).length ∧
    (bankRun true (fun _ => some (List.range 100)) [] (bankInit (α := Nat))).shared.bank =
      none ∧
    buildStep true (fun _ => some (List.range 100)) ⟨true, none, 0⟩
        (⟨.finishStep, [0, 1], false⟩ : BuildTask Nat) =
      (⟨true, none, 0⟩, ⟨.release, [0, 1], false⟩) := by
  have h1 := (c7_persisted_bank_invariant true (fun _ => some (List.range 100))
      [true, true, true, true, true, true, true, false, false, false]
      (⟨true, none, 0⟩ : BankShared Nat) ⟨.start, [], false⟩).1
      ((jsDedup (List.range 100)).take CONFIG_BANK_DAILY_SIZE) (by decide)
  have h2 := (c7_persisted_bank_invariant true (fun _ => some (List.range 100)) []
      (⟨true, none, 0⟩ : BankShared Nat) ⟨.start, [], false⟩).2.1 rfl
  have h3 := (c7_persisted_bank_invariant true (fun _ => some (List.range 100)) []
      (⟨true, none, 0⟩ : BankShared Nat) ⟨.finishStep, [0, 1], false⟩).2.2 rfl (by decide)
  exact ⟨h1.1, h1.2.1, h2, h3⟩

end TinyTales
